import Mathlib

/-!
Verification development for the input-device-manager hierarchy engine
(`src/main.c`).  The repository holds two variants of the program: the
current one ("variant A", immediate apply on drag-and-drop, undo button)
and an older one ("variant B", staged change list with apply/cancel).
Both are embedded below where a claim refers to them.

The device tree is a `GtkTreeStore` with two levels: master devices (and
one synthetic "Floating" bucket) as roots, slave devices as children.
Rows carry the columns `COL_ID`, `COL_NAME`, `COL_USE`, `COL_GENERATION`
(the icon column plays no role in the logic and is omitted).  A `birth`
field models GtkTreeStore row identity: it is set when the row is
created by `gtk_tree_store_append` and never modified afterwards, since
`gtk_tree_store_set` updates columns of an existing row in place; two
rows are the same widget-level row instance exactly when the `birth`
stamp (together with the never-rewritten payload columns) is preserved.
-/

/-- XInput2 `use` constants (from `XInput2.h`). -/
def XIMasterPointer : Int := 1

def XIMasterKeyboard : Int := 2

def XISlavePointer : Int := 3

def XISlaveKeyboard : Int := 4

def XIFloatingSlave : Int := 5

/-- `#define ID_FLOATING -1` (variant A): id of the synthetic Floating bucket row. -/
def ID_FLOATING : Int := -1

/-- One entry of the flat list returned by `XIQueryDevice`. -/
structure XIDeviceInfo where
  deviceid : Int
  name : String
  use : Int
  attachment : Int
deriving DecidableEq

/-- One row of the tree store: columns `COL_ID`, `COL_NAME`, `COL_USE`,
`COL_GENERATION`, plus the `birth` tag modelling row identity (the pass
generation at which the row was appended). -/
structure Row where
  id : Int
  name : String
  use : Int
  generation : Int
  birth : Int
deriving DecidableEq

/-- A depth-0 row of the store together with its children (depth-1 rows). -/
structure RootRow where
  row : Row
  children : List Row
deriving DecidableEq

/-- The tree store: a list of depth-0 rows, each with its children. -/
abbrev TreeStore := List RootRow

/-- `gtk_tree_store_set(..., COL_GENERATION, gds->generation, -1)`:
re-stamp an existing row in place; all other columns (and the row
identity) are untouched. -/
def stampRow (g : Int) (r : Row) : Row := { r with generation := g }

/-- Re-stamp a depth-0 row in place, keeping its children. -/
def stampRootRow (g : Int) (r : RootRow) : RootRow := { r with row := stampRow g r.row }

/-- The ids of the depth-0 rows, in store order. -/
def rootIds (s : TreeStore) : List Int := s.map (·.row.id)

/-- All rows of the store (each root followed by its children). -/
def allRows : TreeStore → List Row
  | [] => []
  | r :: rs => r.row :: (r.children ++ allRows rs)

/-- The ids of all rows in the store. -/
def storeIds (s : TreeStore) : List Int := (allRows s).map (·.id)

/-- First pass of `query_devices`, inner `while(valid)` loop: scan the
depth-0 rows for one whose `COL_ID` equals `i`; when found, re-stamp it
(`valid = 0xFF; break`) and report success. -/
def stampRootById (g i : Int) : TreeStore → Option TreeStore
  | [] => none
  | r :: rs =>
      if r.row.id = i then some (stampRootRow g r :: rs)
      else
        match stampRootById g i rs with
        | some rs' => some (r :: rs')
        | none => none

/-- New depth-0 row for a master device (`gtk_tree_store_append` with
`NULL` parent, then `gtk_tree_store_set` of all columns). -/
def newMasterRoot (g : Int) (d : XIDeviceInfo) : RootRow :=
  ⟨⟨d.deviceid, d.name, d.use, g, g⟩, []⟩

/-- One master device of the first pass of `query_devices`: stamp the
existing depth-0 row with the same id, or append a new one at the end. -/
def addMasterDevice (g : Int) (s : TreeStore) (d : XIDeviceInfo) : TreeStore :=
  match stampRootById g d.deviceid s with
  | some s' => s'
  | none => s ++ [newMasterRoot g d]

/-- `dev->use == XIMasterPointer || dev->use == XIMasterKeyboard`. -/
def isMasterUse (u : Int) : Bool := u = XIMasterPointer || u = XIMasterKeyboard

/-- First pass of `query_devices`: run through all devices and process the
master devices in list order. -/
def masterPass (g : Int) (s : TreeStore) (devs : List XIDeviceInfo) : TreeStore :=
  devs.foldl (fun acc d => if isMasterUse d.use then addMasterDevice g acc d else acc) s

/-- Search the depth-0 rows for the one with `COL_ID == i` and take it out
of the list (used to model `gtk_tree_store_move_after`, which moves a row
together with its children). -/
def extractRootById (i : Int) : TreeStore → Option (RootRow × TreeStore)
  | [] => none
  | r :: rs =>
      if r.row.id = i then some (r, rs)
      else
        match extractRootById i rs with
        | some (fr, rs') => some (fr, r :: rs')
        | none => none

/-- The freshly appended Floating fake master row (`COL_ID = ID_FLOATING`,
`COL_NAME = "Floating"`, `COL_USE = ID_FLOATING`). -/
def floatingRoot (g : Int) : RootRow :=
  ⟨⟨ID_FLOATING, "Floating", ID_FLOATING, g, g⟩, []⟩

/-- Floating-bucket pass of `query_devices`: if no depth-0 row has
`COL_ID == ID_FLOATING`, append the fake master; otherwise move it (with
its children) after the last depth-0 row and re-stamp its generation. -/
def floatingPass (g : Int) (s : TreeStore) : TreeStore :=
  match extractRootById ID_FLOATING s with
  | some (fr, rest) => rest ++ [stampRootRow g fr]
  | none => s ++ [floatingRoot g]

/-- Second pass of `query_devices`, inner children loop: scan the found
master's children for `COL_ID == dev->deviceid`; re-stamp it when found,
otherwise append a new child row with all columns set. -/
def stampOrAppendChild (g : Int) (d : XIDeviceInfo) : List Row → List Row
  | [] => [⟨d.deviceid, d.name, d.use, g, g⟩]
  | c :: rest =>
      if c.id = d.deviceid then stampRow g c :: rest
      else c :: stampOrAppendChild g d rest

/-- `dev->attachment == masterid || (dev->use == XIFloatingSlave && masterid == ID_FLOATING)`. -/
def slaveMatches (d : XIDeviceInfo) (rootId : Int) : Bool :=
  d.attachment = rootId || (d.use = XIFloatingSlave && rootId = ID_FLOATING)

/-- Second pass of `query_devices`, outer loop over depth-0 rows: find the
first depth-0 row the slave device belongs under and stamp-or-append the
child row there (`break` afterwards). -/
def placeSlave (g : Int) (d : XIDeviceInfo) : TreeStore → TreeStore
  | [] => []
  | r :: rs =>
      if slaveMatches d r.row.id then
        { r with children := stampOrAppendChild g d r.children } :: rs
      else r :: placeSlave g d rs

/-- Second pass of `query_devices`: run through all devices and process the
non-master devices in list order. -/
def slavePass (g : Int) (s : TreeStore) (devs : List XIDeviceInfo) : TreeStore :=
  devs.foldl (fun acc d => if isMasterUse d.use then acc else placeSlave g d acc) s

/-- Sweep of `query_devices`: remove every child whose generation is older
than the current one, then every depth-0 row whose generation is older
(`gtk_tree_store_remove` on a depth-0 row also drops its remaining
children). -/
def sweep (g : Int) (s : TreeStore) : TreeStore :=
  (s.map (fun r => { r with children := r.children.filter (fun c => !(c.generation < g)) })).filter
    (fun r => !(r.row.generation < g))

/-- `query_devices` (variant A, the reconciler): increment the generation
counter, run the master pass, the floating-bucket pass, the slave pass and
the sweep.  State is `(generation counter, tree store)`; the flat device
list is the result of `XIQueryDevice`. -/
def query_devices (gen : Int) (s : TreeStore) (devs : List XIDeviceInfo) : Int × TreeStore :=
  let g := gen + 1
  (g, sweep g (slavePass g (floatingPass g (masterPass g s devs)) devs))

/-- Ids of all devices of the flat list. -/
def deviceIds (devs : List XIDeviceInfo) : List Int := devs.map (·.deviceid)

/-- Ids of the master devices of the flat list. -/
def masterIds (devs : List XIDeviceInfo) : List Int :=
  (devs.filter (fun d => isMasterUse d.use)).map (·.deviceid)

/-- Ids of the non-master devices of the flat list. -/
def slaveIds (devs : List XIDeviceInfo) : List Int :=
  (devs.filter (fun d => !isMasterUse d.use)).map (·.deviceid)

/-- The depth-0 row a slave device belongs under: the master named by its
attachment field, or the Floating bucket for a floating slave. -/
def slaveTarget (d : XIDeviceInfo) : Int :=
  if d.use = XIFloatingSlave then ID_FLOATING else d.attachment

/-- Well-formedness of a flat device list as `XIQueryDevice` reports it:
device ids are unique and at least 2 (ids 0 and 1 are the reserved
`XIAllDevices`/`XIAllMasterDevices` values, real devices start at 2), a
floating slave's attachment field does not name a device (the server
leaves it 0), and every attached slave names a master device present in
the same list. -/
@[reducible] def WFDevs (devs : List XIDeviceInfo) : Prop :=
  (deviceIds devs).Nodup ∧
  (∀ d ∈ devs, 2 ≤ d.deviceid) ∧
  (∀ d ∈ devs, d.use = XIFloatingSlave → d.attachment = 0) ∧
  (∀ d ∈ devs, isMasterUse d.use = false → d.use ≠ XIFloatingSlave →
    ∃ m ∈ devs, isMasterUse m.use = true ∧ m.deviceid = d.attachment)

/-- Store invariant between reconciliation passes: all row ids are
distinct, no row is stamped beyond the current generation counter, and
every id is a device id (at least 2) or the Floating bucket id. -/
@[reducible] def InvStore (gen : Int) (s : TreeStore) : Prop :=
  (storeIds s).Nodup ∧
  (∀ rw ∈ allRows s, rw.generation ≤ gen) ∧
  (∀ i ∈ storeIds s, i = ID_FLOATING ∨ 2 ≤ i)

/-- Ids of a root's children. -/
def childIds (r : RootRow) : List Int := r.children.map (·.id)

/-- Proof-side closed form of the master pass on a store that is scanned
root-by-root: stamp every root whose id is a master id. -/
def stampMastersMap (g : Int) (mids : List Int) (s : TreeStore) : TreeStore :=
  s.map (fun r => if r.row.id ∈ mids then stampRootRow g r else r)

/-- Proof-side closed form of the roots appended by the master pass: one
new root per master device whose id is not yet a root id, in list order. -/
def newMasters (g : Int) (rids : List Int) (devs : List XIDeviceInfo) : TreeStore :=
  (devs.filter (fun d => isMasterUse d.use && !(decide (d.deviceid ∈ rids)))).map (newMasterRoot g)

/-- Re-stamp every row of the store with generation `g`, keeping
everything else (ids, names, uses, birth tags, structure, order). -/
def restamp (g : Int) (s : TreeStore) : TreeStore :=
  s.map (fun r => ⟨stampRow g r.row, r.children.map (stampRow g)⟩)

/-- A store is canonical for a device list when it shows exactly that
list: distinct ids from the device/floating id space, roots are the
masters plus the Floating bucket (the bucket last), and the children of
each root are exactly the slaves attached there. -/
def Canonical (s : TreeStore) (devs : List XIDeviceInfo) : Prop :=
  (storeIds s).Nodup ∧
  (∀ i ∈ storeIds s, i = ID_FLOATING ∨ 2 ≤ i) ∧
  (∀ r ∈ s, r.row.id = ID_FLOATING ∨ r.row.id ∈ masterIds devs) ∧
  (∀ m ∈ devs, isMasterUse m.use = true → m.deviceid ∈ rootIds s) ∧
  (∃ X fl, s = X ++ [fl] ∧ fl.row.id = ID_FLOATING) ∧
  (∀ r ∈ s, ∀ c ∈ r.children,
    ∃ d ∈ devs, isMasterUse d.use = false ∧ c.id = d.deviceid ∧ slaveTarget d = r.row.id) ∧
  (∀ d ∈ devs, isMasterUse d.use = false →
    ∃ r ∈ s, r.row.id = slaveTarget d ∧ d.deviceid ∈ childIds r)

/-- "device with id `i` is shown as a child of the root with id `t`". -/
def ChildUnder (s : TreeStore) (i t : Int) : Prop :=
  ∃ r ∈ s, r.row.id = t ∧ i ∈ childIds r

/-- Proof-side description of the store after the master pass and the
floating-bucket pass of `query_devices`: `gen` is the previous counter
value, `g = gen + 1` the current pass generation, `s` the store the pass
started from and `s2` the store after the two passes.  The Floating row
is last; root ids are distinct and live in the id space; every master
device of the list has a depth-0 row stamped with `g`; only
master/Floating rows are stamped; re-used depth-0 rows keep their
children; surviving rows of the old store are stamped in place. -/
def MidStore (gen g : Int) (devs : List XIDeviceInfo) (s s2 : TreeStore) : Prop :=
  (∃ X fl, s2 = X ++ [fl] ∧ fl.row.id = ID_FLOATING ∧ fl.row.generation = g) ∧
  (rootIds s2).Nodup ∧
  (∀ i ∈ rootIds s2, i = ID_FLOATING ∨ 2 ≤ i) ∧
  (∀ m ∈ devs, isMasterUse m.use = true →
    ∃ r ∈ s2, r.row.id = m.deviceid ∧ r.row.generation = g) ∧
  (∀ r ∈ s2, r.row.generation = g → (r.row.id = ID_FLOATING ∨ r.row.id ∈ masterIds devs)) ∧
  (∀ r ∈ s2, r.row.generation ≤ gen ∨ r.row.generation = g) ∧
  (∀ r0 ∈ s, (r0.row.id ∈ masterIds devs ∨ r0.row.id = ID_FLOATING) →
    stampRootRow g r0 ∈ s2) ∧
  (∀ r ∈ s2, r.children = [] ∨ ∃ r0 ∈ s, r0.row.id = r.row.id ∧ r.children = r0.children)

/-! ## Hierarchy mutation requests (both variants)

`XIChangeHierarchy` requests as assembled by the program.  A protocol
interaction trace is a list of `XIChangeHierarchy` invocations, each
carrying the array of change records passed in. -/

/-- `XIAttachToMaster` (from `XInput2.h`). -/
def XIAttachToMaster : Int := 1

/-- One `XIAnyHierarchyChangeInfo` record. -/
inductive HierarchyChange where
  | attachSlave (deviceid new_master : Int)
  | detachSlave (deviceid : Int)
  | removeMasterReturn (deviceid return_mode return_pointer return_keyboard : Int)
  | addMaster (name : String)
deriving DecidableEq

/-- `change_attachment` (variant A): assemble an `XIAttachSlave` record and
issue it as one `XIChangeHierarchy` call at once; success is reported by
the surrounding error trap (environment-determined, not modelled here). -/
def change_attachment (id id_to : Int) : List HierarchyChange :=
  [HierarchyChange.attachSlave id id_to]

/-- `float_device` (variant A): issue one `XIDetachSlave` record. -/
def float_device (id : Int) : List HierarchyChange :=
  [HierarchyChange.detachSlave id]

/-- `remove_master` (variant A): issue one `XIRemoveMaster` record with
`return_mode = XIAttachToMaster`, returning slaves to VCP (2) / VCK (3). -/
def remove_master (id : Int) : List HierarchyChange :=
  [HierarchyChange.removeMasterReturn id XIAttachToMaster 2 3]

/-- Effect of variant A's drop handler `signal_dnd_recv`: the
`XIChangeHierarchy` calls it issues, whether it re-ran `query_devices`,
and whether it enabled the undo button. -/
structure DndOutcome where
  calls : List (List HierarchyChange)
  refreshed : Bool
  undoEnabled : Bool
deriving DecidableEq

/-- `signal_dnd_recv` (variant A).  Inputs: whether a row is selected and
its `COL_ID`/`COL_USE`, whether a drop destination row was resolved and
the resulting drop parent's `COL_ID`/`COL_USE`, and the status reported
by the error trap around the hierarchy call (`opOk`).  The handler
returns early with no effect when nothing is selected, when the selected
row is a master device, or when there is no destination row; otherwise it
immediately floats or re-attaches the device and, on success, refreshes
the tree and enables undo. -/
def signal_dnd_recv (hasSel : Bool) (selId selUse : Int) (hasDest : Bool)
    (mdId mdUse : Int) (opOk : Bool) : DndOutcome :=
  if !hasSel then ⟨[], false, false⟩
  else if selUse = XIMasterPointer || selUse = XIMasterKeyboard then ⟨[], false, false⟩
  else if !hasDest then ⟨[], false, false⟩
  else
    let c : List HierarchyChange :=
      if mdId = ID_FLOATING then float_device selId else change_attachment selId mdId
    ⟨[c], opOk, opOk⟩

/-- `change_attachment` (variant B, the staged variant).  Its doc comment
says it only assembles a change-attachment struct to be applied later,
but the code issues the `XIChangeHierarchy` call immediately and returns
the X `Status` integer `ret`, which the drop handler then appends to the
pending-change list as if it were a pointer to the struct. -/
def change_attachment_staged (id id_to : Int) (ret : Int) : List HierarchyChange × Int :=
  ([HierarchyChange.attachSlave id id_to], ret)

/-- Effect of variant B's drop handler: the `XIChangeHierarchy` calls
issued during the handler, the values appended to `gds->changes`, and
whether any tree-store row was inserted/removed/set. -/
structure DndOutcomeStaged where
  calls : List (List HierarchyChange)
  enqueued : List Int
  treeEdited : Bool
deriving DecidableEq

/-- `signal_dnd_recv` (variant B, the staged variant).  After the same
early returns as variant A, it rejects role-mismatched drops (a slave
pointer may go only under a master pointer, a slave keyboard only under a
master keyboard, unless the drop parent is the Floating bucket row, whose
`COL_USE` is `XIFloatingSlave`); otherwise it moves the dragged row in
the tree store and appends `change_attachment`'s return value to the
pending-change list — which, per the `change_attachment_staged` bug,
issues the attach call right away. -/
def signal_dnd_recv_staged (hasSel : Bool) (selId selUse : Int) (hasDest : Bool)
    (mdId mdUse : Int) (ret : Int) : DndOutcomeStaged :=
  if !hasSel then ⟨[], [], false⟩
  else if selUse = XIMasterPointer || selUse = XIMasterKeyboard then ⟨[], [], false⟩
  else if !hasDest then ⟨[], [], false⟩
  else if mdUse ≠ XIFloatingSlave ∧ selUse = XISlavePointer ∧ mdUse ≠ XIMasterPointer then
    ⟨[], [], false⟩
  else if mdUse ≠ XIFloatingSlave ∧ selUse = XISlaveKeyboard ∧ mdUse ≠ XIMasterKeyboard then
    ⟨[], [], false⟩
  else
    let ca := change_attachment_staged selId mdId ret
    ⟨[ca.1], [ca.2], true⟩

/-- `gtk_widget_set_sensitive` argument for the "Remove" popup item
(variant A): disabled exactly for the reserved VCP/VCK ids 2 and 3. -/
def remove_item_sensitive (id : Int) : Bool := !(id = 2 || id = 3)

/-- Calls issued by a right-click remove interaction (variant A):
`signal_button_press` shows the "Remove" item only for master rows and
disables it for the reserved ids; an insensitive `GtkMenuItem` never
emits `activate`, so `signal_popup_activate` (which calls `remove_master`
unconditionally and then refreshes) can only run when the item is
sensitive. -/
def remove_request_calls (id use : Int) : List (List HierarchyChange) :=
  if (use = XIMasterPointer || use = XIMasterKeyboard) && remove_item_sensitive id then
    [remove_master id]
  else []

/-- Session state around the pending-change list: the list `gds->changes`,
the trace of `XIChangeHierarchy` calls issued so far, and the number of
`query_devices` refreshes triggered. -/
structure ApplyState where
  changes : List HierarchyChange
  trace : List (List HierarchyChange)
  refreshes : Nat
deriving DecidableEq

/-- `apply` (same code in both variants): count the pending list; return
at once if it is empty; allocate the array (`allocOk` is the outcome of
`malloc`) and, if the allocation failed, log and return with the list
untouched; otherwise issue all changes as one `XIChangeHierarchy` call,
free the list and re-run `query_devices`. -/
def apply (allocOk : Bool) (st : ApplyState) : ApplyState :=
  if st.changes.length = 0 then st
  else if !allocOk then st
  else ⟨[], st.trace ++ [st.changes], st.refreshes + 1⟩

/-- `GTK_RESPONSE_CANCEL` handler in variant B's `main`: re-run
`query_devices`, free the pending-change list, disable the buttons.  No
hierarchy call is issued. -/
def cancel_staged (st : ApplyState) : ApplyState :=
  ⟨[], st.trace, st.refreshes + 1⟩

/-! ## Basic store lemmas -/

theorem rootIds_nil : rootIds [] = [] := rfl

theorem rootIds_cons (r : RootRow) (rs : TreeStore) :
    rootIds (r :: rs) = r.row.id :: rootIds rs := rfl

theorem rootIds_append (s t : TreeStore) :
    rootIds (s ++ t) = rootIds s ++ rootIds t := by
  simp [rootIds]

theorem allRows_nil : allRows [] = [] := rfl

theorem allRows_cons (r : RootRow) (rs : TreeStore) :
    allRows (r :: rs) = r.row :: (r.children ++ allRows rs) := rfl

theorem allRows_append (s t : TreeStore) :
    allRows (s ++ t) = allRows s ++ allRows t := by
  induction s with
  | nil => simp [allRows]
  | cons r rs ih => simp [allRows_cons, ih]

theorem mem_allRows {rw : Row} {s : TreeStore} :
    rw ∈ allRows s ↔ ∃ r ∈ s, rw = r.row ∨ rw ∈ r.children := by
  induction s with
  | nil => simp [allRows]
  | cons r rs ih =>
    simp only [allRows_cons, List.mem_cons, List.mem_append, ih]
    constructor
    · rintro (h | h | h)
      · exact ⟨r, Or.inl rfl, Or.inl h⟩
      · exact ⟨r, Or.inl rfl, Or.inr h⟩
      · obtain ⟨r', hr', h'⟩ := h
        exact ⟨r', Or.inr hr', h'⟩
    · rintro ⟨r', h | h, h'⟩
      · subst h
        rcases h' with h' | h'
        · exact Or.inl h'
        · exact Or.inr (Or.inl h')
      · exact Or.inr (Or.inr ⟨r', h, h'⟩)

theorem storeIds_nil : storeIds [] = [] := rfl

theorem storeIds_cons (r : RootRow) (rs : TreeStore) :
    storeIds (r :: rs) = r.row.id :: (childIds r ++ storeIds rs) := by
  simp [storeIds, allRows_cons, childIds]

theorem storeIds_append (s t : TreeStore) :
    storeIds (s ++ t) = storeIds s ++ storeIds t := by
  simp [storeIds, allRows_append]

theorem mem_storeIds {i : Int} {s : TreeStore} :
    i ∈ storeIds s ↔ ∃ r ∈ s, i = r.row.id ∨ i ∈ childIds r := by
  simp only [storeIds, List.mem_map, mem_allRows, childIds]
  constructor
  · rintro ⟨rw, ⟨r, hr, hrw | hrw⟩, hid⟩
    · exact ⟨r, hr, Or.inl (by rw [← hid, hrw])⟩
    · exact ⟨r, hr, Or.inr ⟨rw, hrw, hid⟩⟩
  · rintro ⟨r, hr, hid | ⟨rw, hrw, hid⟩⟩
    · exact ⟨r.row, ⟨r, hr, Or.inl rfl⟩, hid.symm⟩
    · exact ⟨rw, ⟨r, hr, Or.inr hrw⟩, hid⟩

theorem rootIds_sublist_storeIds (s : TreeStore) :
    (rootIds s).Sublist (storeIds s) := by
  induction s with
  | nil => simp [rootIds, storeIds, allRows]
  | cons r rs ih =>
    rw [rootIds_cons, storeIds_cons]
    exact (ih.trans (List.sublist_append_right (childIds r) (storeIds rs))).cons₂ r.row.id

theorem rootIds_nodup_of_storeIds {s : TreeStore} (h : (storeIds s).Nodup) :
    (rootIds s).Nodup :=
  (rootIds_sublist_storeIds s).nodup h

theorem childIds_nodup_of_storeIds {s : TreeStore} (h : (storeIds s).Nodup) :
    ∀ r ∈ s, (childIds r).Nodup := by
  induction s with
  | nil => simp
  | cons r rs ih =>
    rw [storeIds_cons] at h
    intro r' hr'
    rcases List.mem_cons.mp hr' with hr' | hr'
    · subst hr'
      exact (h.of_cons.of_append_left)
    · exact ih h.of_cons.of_append_right r' hr'

theorem stampRow_id (g : Int) (r : Row) : (stampRow g r).id = r.id := rfl

theorem stampRootRow_row_id (g : Int) (r : RootRow) :
    (stampRootRow g r).row.id = r.row.id := rfl

theorem stampRootRow_children (g : Int) (r : RootRow) :
    (stampRootRow g r).children = r.children := rfl

/-! ## Master pass: closed form -/

theorem masterIds_nil : masterIds [] = [] := rfl

theorem masterIds_cons_master {d : XIDeviceInfo} (rest : List XIDeviceInfo)
    (h : isMasterUse d.use = true) :
    masterIds (d :: rest) = d.deviceid :: masterIds rest := by
  simp [masterIds, List.filter_cons, h]

theorem masterIds_cons_slave {d : XIDeviceInfo} (rest : List XIDeviceInfo)
    (h : isMasterUse d.use = false) :
    masterIds (d :: rest) = masterIds rest := by
  simp [masterIds, List.filter_cons, h]

theorem masterIds_subset_deviceIds {i : Int} {devs : List XIDeviceInfo}
    (h : i ∈ masterIds devs) : i ∈ deviceIds devs := by
  simp only [masterIds, deviceIds, List.mem_map, List.mem_filter] at h ⊢
  obtain ⟨d, ⟨hd, _⟩, hid⟩ := h
  exact ⟨d, hd, hid⟩

theorem slaveIds_subset_deviceIds {i : Int} {devs : List XIDeviceInfo}
    (h : i ∈ slaveIds devs) : i ∈ deviceIds devs := by
  simp only [slaveIds, deviceIds, List.mem_map, List.mem_filter] at h ⊢
  obtain ⟨d, ⟨hd, _⟩, hid⟩ := h
  exact ⟨d, hd, hid⟩

theorem rootIds_stampMastersMap (g : Int) (mids : List Int) (s : TreeStore) :
    rootIds (stampMastersMap g mids s) = rootIds s := by
  unfold rootIds stampMastersMap
  rw [List.map_map]
  apply List.map_congr_left
  intro r _
  by_cases h : r.row.id ∈ mids <;> simp [h, stampRootRow, stampRow]

theorem map_stamp_not_mem {g i : Int} {s : TreeStore} (h : i ∉ rootIds s) :
    s.map (fun r => if r.row.id = i then stampRootRow g r else r) = s := by
  induction s with
  | nil => rfl
  | cons r rs ih =>
    rw [rootIds_cons, List.mem_cons] at h
    push_neg at h
    have hne : r.row.id ≠ i := fun hc => h.1 hc.symm
    simp only [List.map_cons, if_neg hne, ih h.2]

theorem stampRootById_eq_none {g i : Int} {s : TreeStore} (h : i ∉ rootIds s) :
    stampRootById g i s = none := by
  induction s with
  | nil => rfl
  | cons r rs ih =>
    rw [rootIds_cons, List.mem_cons] at h
    push_neg at h
    have hne : r.row.id ≠ i := fun hc => h.1 hc.symm
    simp only [stampRootById, if_neg hne, ih h.2]

theorem stampRootById_eq_some {g i : Int} {s : TreeStore}
    (hmem : i ∈ rootIds s) (hnd : (rootIds s).Nodup) :
    stampRootById g i s =
      some (s.map (fun r => if r.row.id = i then stampRootRow g r else r)) := by
  induction s with
  | nil => simp [rootIds] at hmem
  | cons r rs ih =>
    rw [rootIds_cons] at hmem hnd
    rw [List.nodup_cons] at hnd
    by_cases h : r.row.id = i
    · have h1 : i ∉ rootIds rs := h ▸ hnd.1
      simp [stampRootById, h, map_stamp_not_mem h1]
    · rcases List.mem_cons.mp hmem with hmem' | hmem'
      · exact absurd hmem'.symm h
      · simp [stampRootById, h, ih hmem' hnd.2]

theorem deviceIds_cons (d : XIDeviceInfo) (rest : List XIDeviceInfo) :
    deviceIds (d :: rest) = d.deviceid :: deviceIds rest := rfl

theorem masterPass_cons (g : Int) (s : TreeStore) (d : XIDeviceInfo)
    (rest : List XIDeviceInfo) :
    masterPass g s (d :: rest) =
      masterPass g (if isMasterUse d.use then addMasterDevice g s d else s) rest := rfl

theorem rootIds_map_stampIf (g i : Int) (s : TreeStore) :
    rootIds (s.map (fun r => if r.row.id = i then stampRootRow g r else r)) = rootIds s := by
  unfold rootIds
  rw [List.map_map]
  apply List.map_congr_left
  intro r _
  by_cases h : r.row.id = i <;> simp [h, stampRootRow, stampRow]

theorem newMasterRoot_row_id (g : Int) (d : XIDeviceInfo) :
    (newMasterRoot g d).row.id = d.deviceid := rfl

theorem masterPass_eq {devs : List XIDeviceInfo} (g : Int) {s : TreeStore}
    (hnd : (rootIds s).Nodup) (hdd : (deviceIds devs).Nodup) :
    masterPass g s devs =
      stampMastersMap g (masterIds devs) s ++ newMasters g (rootIds s) devs := by
  induction devs generalizing s with
  | nil => simp [masterPass, stampMastersMap, newMasters, masterIds]
  | cons d rest ih =>
    rw [deviceIds_cons, List.nodup_cons] at hdd
    rw [masterPass_cons]
    by_cases hm : isMasterUse d.use
    · by_cases hmem : d.deviceid ∈ rootIds s
      · have hadd : addMasterDevice g s d =
            s.map (fun r => if r.row.id = d.deviceid then stampRootRow g r else r) := by
          unfold addMasterDevice
          rw [stampRootById_eq_some hmem hnd]
        have hroots : rootIds (addMasterDevice g s d) = rootIds s := by
          rw [hadd, rootIds_map_stampIf]
        rw [if_pos hm, @ih (addMasterDevice g s d) (hroots ▸ hnd) hdd.2, hroots]
        have hstamp : stampMastersMap g (masterIds rest) (addMasterDevice g s d) =
            stampMastersMap g (masterIds (d :: rest)) s := by
          rw [hadd]
          unfold stampMastersMap
          rw [List.map_map]
          apply List.map_congr_left
          intro r _
          by_cases hr : r.row.id = d.deviceid
          · have hnotin : r.row.id ∉ masterIds rest := by
              rw [hr]
              exact fun hc => hdd.1 (masterIds_subset_deviceIds hc)
            simp [Function.comp, hr, stampRootRow_row_id, masterIds_cons_master rest hm,
              if_neg hnotin, hnotin]
            intro hc
            exact absurd hc (hr ▸ hnotin)
          · simp only [Function.comp, if_neg hr]
            rw [masterIds_cons_master rest hm]
            by_cases hin : r.row.id ∈ masterIds rest
            · simp [hin, List.mem_cons, hr]
            · simp [hin, List.mem_cons, hr]
        have hnew : newMasters g (rootIds s) (d :: rest) = newMasters g (rootIds s) rest := by
          simp [newMasters, List.filter_cons, hm, hmem]
        rw [hstamp, hnew]
      · have hadd : addMasterDevice g s d = s ++ [newMasterRoot g d] := by
          unfold addMasterDevice
          rw [stampRootById_eq_none hmem]
        have hroots : rootIds (addMasterDevice g s d) = rootIds s ++ [d.deviceid] := by
          rw [hadd, rootIds_append, rootIds_cons, rootIds_nil, newMasterRoot_row_id]
        have hnd' : (rootIds (addMasterDevice g s d)).Nodup := by
          rw [hroots, List.nodup_append]
          refine ⟨hnd, List.nodup_singleton _, ?_⟩
          intro a ha hb
          rw [List.mem_singleton] at hb
          exact hmem (hb ▸ ha)
        rw [if_pos hm, @ih (addMasterDevice g s d) hnd' hdd.2, hroots]
        have hstamp : stampMastersMap g (masterIds rest) (addMasterDevice g s d) =
            stampMastersMap g (masterIds (d :: rest)) s ++ [newMasterRoot g d] := by
          rw [hadd]
          unfold stampMastersMap
          rw [List.map_append]
          have h2 : (newMasterRoot g d).row.id ∉ masterIds rest := by
            rw [newMasterRoot_row_id]
            exact fun hc => hdd.1 (masterIds_subset_deviceIds hc)
          have h3 : [newMasterRoot g d].map
              (fun r => if r.row.id ∈ masterIds rest then stampRootRow g r else r) =
              [newMasterRoot g d] := by
            simp [if_neg h2, h2]
          rw [h3]
          congr 1
          apply List.map_congr_left
          intro r hr
          have hne : r.row.id ≠ d.deviceid := by
            intro hc
            exact hmem (hc ▸ List.mem_map_of_mem (·.row.id) hr)
          rw [masterIds_cons_master rest hm]
          by_cases hin : r.row.id ∈ masterIds rest
          · simp [hin, List.mem_cons, hne]
          · simp [hin, List.mem_cons, hne]
        have hnew : newMasters g (rootIds s ++ [d.deviceid]) rest =
            newMasters g (rootIds s) rest := by
          unfold newMasters
          congr 1
          apply List.filter_congr
          intro x hx
          have hne : x.deviceid ≠ d.deviceid := by
            intro hc
            exact hdd.1 (hc ▸ List.mem_map_of_mem (·.deviceid) hx)
          simp [List.mem_append, List.mem_singleton, hne]
        have hnewcons : newMasters g (rootIds s) (d :: rest) =
            newMasterRoot g d :: newMasters g (rootIds s) rest := by
          simp [newMasters, List.filter_cons, hm, hmem]
        rw [hstamp, hnew, hnewcons, List.append_assoc, List.singleton_append]
    · have hm' : isMasterUse d.use = false := by
        exact Bool.not_eq_true _ ▸ (by simpa using hm)
      rw [if_neg hm, ih hnd hdd.2]
      rw [masterIds_cons_slave rest hm']
      have hnew : newMasters g (rootIds s) (d :: rest) = newMasters g (rootIds s) rest := by
        simp [newMasters, List.filter_cons, hm']
      rw [hnew]

/-! ## Floating pass -/

theorem extractRootById_eq_none {i : Int} {s : TreeStore} (h : i ∉ rootIds s) :
    extractRootById i s = none := by
  induction s with
  | nil => rfl
  | cons r rs ih =>
    rw [rootIds_cons, List.mem_cons] at h
    push_neg at h
    have hne : r.row.id ≠ i := fun hc => h.1 hc.symm
    simp only [extractRootById, if_neg hne, ih h.2]

theorem extractRootById_split {i : Int} {a b : TreeStore} {fr : RootRow}
    (hfr : fr.row.id = i) (ha : i ∉ rootIds a) :
    extractRootById i (a ++ fr :: b) = some (fr, a ++ b) := by
  induction a with
  | nil => simp [extractRootById, hfr]
  | cons r rs ih =>
    rw [rootIds_cons, List.mem_cons] at ha
    push_neg at ha
    have hne : r.row.id ≠ i := fun hc => ha.1 hc.symm
    simp only [List.cons_append, extractRootById, if_neg hne, List.append_eq, ih ha.2]

theorem rootIds_first_split {i : Int} {s : TreeStore} (h : i ∈ rootIds s) :
    ∃ a fr b, s = a ++ fr :: b ∧ fr.row.id = i ∧ i ∉ rootIds a := by
  induction s with
  | nil => simp [rootIds] at h
  | cons r rs ih =>
    by_cases hr : r.row.id = i
    · exact ⟨[], r, rs, rfl, hr, by simp [rootIds]⟩
    · rw [rootIds_cons, List.mem_cons] at h
      rcases h with h | h
      · exact absurd h.symm hr
      · obtain ⟨a, fr, b, hs, hfr, ha⟩ := ih h
        refine ⟨r :: a, fr, b, by rw [hs]; rfl, hfr, ?_⟩
        rw [rootIds_cons, List.mem_cons]
        push_neg
        exact ⟨fun hc => hr hc.symm, ha⟩

theorem floatingPass_not_mem {g : Int} {s : TreeStore} (h : ID_FLOATING ∉ rootIds s) :
    floatingPass g s = s ++ [floatingRoot g] := by
  unfold floatingPass
  rw [extractRootById_eq_none h]

theorem floatingPass_split {g : Int} {a b : TreeStore} {fr : RootRow}
    (hfr : fr.row.id = ID_FLOATING) (ha : ID_FLOATING ∉ rootIds a) :
    floatingPass g (a ++ fr :: b) = (a ++ b) ++ [stampRootRow g fr] := by
  unfold floatingPass
  rw [extractRootById_split hfr ha]

/-! ## Membership descriptions of the master-pass closed form -/

theorem mem_stampMastersMap {r' : RootRow} {g : Int} {mids : List Int} {s : TreeStore} :
    r' ∈ stampMastersMap g mids s ↔
      ∃ r ∈ s, r' = if r.row.id ∈ mids then stampRootRow g r else r := by
  unfold stampMastersMap
  rw [List.mem_map]
  constructor
  · rintro ⟨r, hr, h⟩
    exact ⟨r, hr, h.symm⟩
  · rintro ⟨r, hr, h⟩
    exact ⟨r, hr, h.symm⟩

theorem rootIds_newMasters (g : Int) (rids : List Int) (devs : List XIDeviceInfo) :
    rootIds (newMasters g rids devs) =
      (devs.filter (fun d => isMasterUse d.use && !(decide (d.deviceid ∈ rids)))).map
        (·.deviceid) := by
  unfold rootIds newMasters
  rw [List.map_map]
  rfl

theorem nodup_rootIds_newMasters {g : Int} {rids : List Int} {devs : List XIDeviceInfo}
    (hdd : (deviceIds devs).Nodup) :
    (rootIds (newMasters g rids devs)).Nodup := by
  rw [rootIds_newMasters]
  have h2 : (devs.map (·.deviceid)).Nodup := hdd
  exact ((List.filter_sublist devs).map (·.deviceid)).nodup h2

theorem mem_newMasters {n : RootRow} {g : Int} {rids : List Int} {devs : List XIDeviceInfo} :
    n ∈ newMasters g rids devs ↔
      ∃ d ∈ devs, isMasterUse d.use = true ∧ d.deviceid ∉ rids ∧ n = newMasterRoot g d := by
  unfold newMasters
  simp only [List.mem_map, List.mem_filter, Bool.and_eq_true, Bool.not_eq_true',
    decide_eq_false_iff_not]
  constructor
  · rintro ⟨d, ⟨hd, hm, hnr⟩, h⟩
    exact ⟨d, hd, hm, hnr, h.symm⟩
  · rintro ⟨d, hd, hm, hnr, h⟩
    exact ⟨d, ⟨hd, hm, hnr⟩, h.symm⟩

theorem mem_rootIds_newMasters {i : Int} {g : Int} {rids : List Int}
    {devs : List XIDeviceInfo} (h : i ∈ rootIds (newMasters g rids devs)) :
    i ∈ masterIds devs ∧ i ∉ rids := by
  rw [rootIds_newMasters] at h
  simp only [List.mem_map, List.mem_filter, Bool.and_eq_true, Bool.not_eq_true',
    decide_eq_false_iff_not] at h
  obtain ⟨d, ⟨hd, hm, hnr⟩, hid⟩ := h
  constructor
  · simp only [masterIds, List.mem_map, List.mem_filter]
    exact ⟨d, ⟨hd, hm⟩, hid⟩
  · exact hid ▸ hnr

theorem stampRootRow_row_gen (g : Int) (r : RootRow) :
    (stampRootRow g r).row.generation = g := rfl

theorem mem_masterIds_of {m : XIDeviceInfo} {devs : List XIDeviceInfo}
    (hm : m ∈ devs) (h : isMasterUse m.use = true) : m.deviceid ∈ masterIds devs := by
  simp only [masterIds, List.mem_map, List.mem_filter]
  exact ⟨m, ⟨hm, h⟩, rfl⟩

theorem deviceIds_ge2 {i : Int} {devs : List XIDeviceInfo}
    (hge : ∀ d ∈ devs, 2 ≤ d.deviceid) (h : i ∈ deviceIds devs) : 2 ≤ i := by
  simp only [deviceIds, List.mem_map] at h
  obtain ⟨d, hd, hid⟩ := h
  exact hid ▸ hge d hd

theorem mem_rootIds {i : Int} {s : TreeStore} :
    i ∈ rootIds s ↔ ∃ r ∈ s, r.row.id = i := by
  simp [rootIds, List.mem_map]

theorem mem_rootIds_of_mem {r : RootRow} {s : TreeStore} (h : r ∈ s) :
    r.row.id ∈ rootIds s :=
  List.mem_map_of_mem (·.row.id) h

theorem mid_of_phases {gen : Int} {devs : List XIDeviceInfo} {s : TreeStore}
    (hWF : WFDevs devs) (hInv : InvStore gen s) :
    MidStore gen (gen + 1) devs s (floatingPass (gen + 1) (masterPass (gen + 1) s devs)) := by
  obtain ⟨hdd, hge2, -, -⟩ := hWF
  obtain ⟨hndS, hgenb, hids⟩ := hInv
  have hndR : (rootIds s).Nodup := rootIds_nodup_of_storeIds hndS
  set g := gen + 1 with hg
  have hglt : gen < g := by omega
  have hmp := @masterPass_eq devs g s hndR hdd
  set SM := stampMastersMap g (masterIds devs) s with hSMdef
  set NM := newMasters g (rootIds s) devs with hNMdef
  rw [hmp]
  have hidSM : rootIds SM = rootIds s := rootIds_stampMastersMap g (masterIds devs) s
  have hNMdesc : ∀ i ∈ rootIds NM, i ∈ masterIds devs ∧ i ∉ rootIds s :=
    fun i hi => mem_rootIds_newMasters hi
  have hmge2 : ∀ i ∈ masterIds devs, 2 ≤ i :=
    fun i hi => deviceIds_ge2 hge2 (masterIds_subset_deviceIds hi)
  have hmne : ∀ i ∈ masterIds devs, i ≠ ID_FLOATING := by
    intro i hi hc
    have := hmge2 i hi
    rw [hc] at this
    norm_num [ID_FLOATING] at this
  have hNM2 : ∀ i ∈ rootIds NM, 2 ≤ i := fun i hi => hmge2 i (hNMdesc i hi).1
  have hnd1 : (rootIds (SM ++ NM)).Nodup := by
    rw [rootIds_append, List.nodup_append]
    refine ⟨hidSM ▸ hndR, nodup_rootIds_newMasters hdd, ?_⟩
    intro x hx hx2
    exact (hNMdesc x hx2).2 (hidSM ▸ hx)
  have hids1 : ∀ i ∈ rootIds (SM ++ NM), i = ID_FLOATING ∨ 2 ≤ i := by
    intro i hi
    rw [rootIds_append, List.mem_append] at hi
    rcases hi with hi | hi
    · exact hids i ((rootIds_sublist_storeIds s).subset (hidSM ▸ hi))
    · exact Or.inr (hNM2 i hi)
  have hmem1 : ∀ r ∈ SM ++ NM,
      (∃ r0 ∈ s, r0.row.id ∈ masterIds devs ∧ r = stampRootRow g r0) ∨
      (∃ r0 ∈ s, r0.row.id ∉ masterIds devs ∧ r = r0) ∨
      (∃ d ∈ devs, isMasterUse d.use = true ∧ r = newMasterRoot g d) := by
    intro r hr
    rw [List.mem_append] at hr
    rcases hr with hr | hr
    · obtain ⟨r0, hr0, heq⟩ := mem_stampMastersMap.mp hr
      by_cases hin : r0.row.id ∈ masterIds devs
      · exact Or.inl ⟨r0, hr0, hin, by rw [heq, if_pos hin]⟩
      · exact Or.inr (Or.inl ⟨r0, hr0, hin, by rw [heq, if_neg hin]⟩)
    · obtain ⟨d, hd, hm, -, heq⟩ := mem_newMasters.mp hr
      exact Or.inr (Or.inr ⟨d, hd, hm, heq⟩)
  have hgen6 : ∀ r ∈ SM ++ NM, r.row.generation ≤ gen ∨ r.row.generation = g := by
    intro r hr
    rcases hmem1 r hr with ⟨r0, -, -, heq⟩ | ⟨r0, hr0, -, heq⟩ | ⟨d, -, -, heq⟩
    · exact Or.inr (heq ▸ stampRootRow_row_gen g r0)
    · refine Or.inl ?_
      rw [heq]
      exact hgenb r0.row (mem_allRows.mpr ⟨r0, hr0, Or.inl rfl⟩)
    · exact Or.inr (by rw [heq]; rfl)
  have hgen5 : ∀ r ∈ SM ++ NM, r.row.generation = g → r.row.id ∈ masterIds devs := by
    intro r hr hgr
    rcases hmem1 r hr with ⟨r0, -, hin, heq⟩ | ⟨r0, hr0, -, heq⟩ | ⟨d, hd, hm, heq⟩
    · rw [heq, stampRootRow_row_id]
      exact hin
    · exfalso
      have := hgenb r0.row (mem_allRows.mpr ⟨r0, hr0, Or.inl rfl⟩)
      rw [heq] at hgr
      omega
    · rw [heq, newMasterRoot_row_id]
      exact mem_masterIds_of hd hm
  have hchild1 : ∀ r ∈ SM ++ NM,
      r.children = [] ∨ ∃ r0 ∈ s, r0.row.id = r.row.id ∧ r.children = r0.children := by
    intro r hr
    rcases hmem1 r hr with ⟨r0, hr0, -, heq⟩ | ⟨r0, hr0, -, heq⟩ | ⟨d, -, -, heq⟩
    · exact Or.inr ⟨r0, hr0, by rw [heq, stampRootRow_row_id], by rw [heq, stampRootRow_children]⟩
    · exact Or.inr ⟨r0, hr0, by rw [heq], by rw [heq]⟩
    · exact Or.inl (by rw [heq]; rfl)
  have hmast1 : ∀ m ∈ devs, isMasterUse m.use = true →
      ∃ r ∈ SM ++ NM, r.row.id = m.deviceid ∧ r.row.generation = g := by
    intro m hm hmu
    by_cases hin : m.deviceid ∈ rootIds s
    · obtain ⟨r0, hr0, hid0⟩ := mem_rootIds.mp hin
      have hin' : r0.row.id ∈ masterIds devs := hid0 ▸ mem_masterIds_of hm hmu
      refine ⟨stampRootRow g r0, List.mem_append_left _ ?_, hid0 ▸ stampRootRow_row_id g r0,
        stampRootRow_row_gen g r0⟩
      exact mem_stampMastersMap.mpr ⟨r0, hr0, by rw [if_pos hin']⟩
    · refine ⟨newMasterRoot g m, List.mem_append_right _ ?_, rfl, rfl⟩
      exact mem_newMasters.mpr ⟨m, hm, hmu, hin, rfl⟩
  have hkeep1 : ∀ r0 ∈ s, r0.row.id ∈ masterIds devs → stampRootRow g r0 ∈ SM ++ NM := by
    intro r0 hr0 hin
    exact List.mem_append_left _ (mem_stampMastersMap.mpr ⟨r0, hr0, by rw [if_pos hin]⟩)
  have hself1 : ∀ r0 ∈ s, r0.row.id = ID_FLOATING → r0 ∈ SM ++ NM := by
    intro r0 hr0 hid0
    have hni : r0.row.id ∉ masterIds devs := fun hc => hmne _ hc hid0
    exact List.mem_append_left _ (mem_stampMastersMap.mpr ⟨r0, hr0, by rw [if_neg hni]⟩)
  by_cases hfmem : ID_FLOATING ∈ rootIds (SM ++ NM)
  · obtain ⟨a, fr, b, hsplit, hfrid, hnotina⟩ := rootIds_first_split hfmem
    rw [hsplit, floatingPass_split hfrid hnotina]
    have hfr1 : fr ∈ SM ++ NM := by
      rw [hsplit]
      exact List.mem_append_right a (List.mem_cons_self _ _)
    have hmemab : ∀ r, r ∈ a ++ b → r ∈ SM ++ NM := by
      intro r hr
      rw [hsplit]
      rw [List.mem_append] at hr ⊢
      rcases hr with hr | hr
      · exact Or.inl hr
      · exact Or.inr (List.mem_cons_of_mem fr hr)
    have hinj : ∀ r ∈ SM ++ NM, r.row.id ≠ ID_FLOATING →
        r ∈ (a ++ b) ++ [stampRootRow g fr] := by
      intro r hr hne
      rw [hsplit] at hr
      rw [List.mem_append] at hr
      rcases hr with hr | hr
      · exact List.mem_append_left _ (List.mem_append_left _ hr)
      · rcases List.mem_cons.mp hr with hr | hr
        · exact absurd (hr ▸ hfrid) hne
        · exact List.mem_append_left _ (List.mem_append_right _ hr)
    have hperm : List.Perm (rootIds ((a ++ b) ++ [stampRootRow g fr])) (rootIds (a ++ fr :: b)) := by
      rw [rootIds_append, rootIds_append, rootIds_append, rootIds_cons,
        rootIds_cons, rootIds_nil, stampRootRow_row_id, List.append_assoc]
      exact List.Perm.append_left (rootIds a) (List.perm_append_singleton fr.row.id (rootIds b))
    refine ⟨⟨a ++ b, stampRootRow g fr, rfl, hfrid ▸ stampRootRow_row_id g fr,
      stampRootRow_row_gen g fr⟩, ?_, ?_, ?_, ?_, ?_, ?_, ?_⟩
    · exact hperm.nodup_iff.mpr (hsplit ▸ hnd1)
    · intro i hi
      exact hids1 i (hsplit ▸ hperm.mem_iff.mp hi)
    · intro m hm hmu
      obtain ⟨r, hr, hid, hgenr⟩ := hmast1 m hm hmu
      refine ⟨r, hinj r hr ?_, hid, hgenr⟩
      rw [hid]
      exact hmne m.deviceid (mem_masterIds_of hm hmu)
    · intro r hr hgr
      rw [List.mem_append] at hr
      rcases hr with hr | hr
      · exact Or.inr (hgen5 r (hmemab r hr) hgr)
      · rw [List.mem_singleton] at hr
        exact Or.inl (by rw [hr, stampRootRow_row_id, hfrid])
    · intro r hr
      rw [List.mem_append] at hr
      rcases hr with hr | hr
      · exact hgen6 r (hmemab r hr)
      · rw [List.mem_singleton] at hr
        exact Or.inr (by rw [hr]; rfl)
    · intro r0 hr0 hcase
      rcases hcase with hin | hid0
      · have hmem := hkeep1 r0 hr0 hin
        refine hinj _ hmem ?_
        rw [stampRootRow_row_id]
        exact hmne _ hin
      · have hmem := hself1 r0 hr0 hid0
        have hr0fr : r0 = fr := by
          have hndids : (List.map (·.row.id) (SM ++ NM)).Nodup := hnd1
          exact List.inj_on_of_nodup_map hndids hmem hfr1 (by rw [hid0, hfrid])
        rw [hr0fr]
        exact List.mem_append_right _ (List.mem_singleton.mpr rfl)
    · intro r hr
      rw [List.mem_append] at hr
      rcases hr with hr | hr
      · exact hchild1 r (hmemab r hr)
      · rw [List.mem_singleton] at hr
        rcases hchild1 fr hfr1 with hc | ⟨r0, hr0, hid0, hch⟩
        · exact Or.inl (by rw [hr, stampRootRow_children, hc])
        · exact Or.inr ⟨r0, hr0, by rw [hr, stampRootRow_row_id]; exact hid0,
            by rw [hr, stampRootRow_children]; exact hch⟩
  · rw [floatingPass_not_mem hfmem]
    refine ⟨⟨SM ++ NM, floatingRoot g, rfl, rfl, rfl⟩, ?_, ?_, ?_, ?_, ?_, ?_, ?_⟩
    · rw [rootIds_append, List.nodup_append]
      refine ⟨hnd1, List.nodup_singleton _, ?_⟩
      intro x hx hx2
      rw [rootIds_cons, rootIds_nil, List.mem_singleton] at hx2
      have : (floatingRoot g).row.id = ID_FLOATING := rfl
      rw [this] at hx2
      exact hfmem (hx2 ▸ hx)
    · intro i hi
      rw [rootIds_append, List.mem_append] at hi
      rcases hi with hi | hi
      · exact hids1 i hi
      · rw [rootIds_cons, rootIds_nil, List.mem_singleton] at hi
        exact Or.inl hi
    · intro m hm hmu
      obtain ⟨r, hr, hid, hgenr⟩ := hmast1 m hm hmu
      exact ⟨r, List.mem_append_left _ hr, hid, hgenr⟩
    · intro r hr hgr
      rw [List.mem_append] at hr
      rcases hr with hr | hr
      · exact Or.inr (hgen5 r hr hgr)
      · rw [List.mem_singleton] at hr
        exact Or.inl (by rw [hr]; rfl)
    · intro r hr
      rw [List.mem_append] at hr
      rcases hr with hr | hr
      · exact hgen6 r hr
      · rw [List.mem_singleton] at hr
        exact Or.inr (by rw [hr]; rfl)
    · intro r0 hr0 hcase
      rcases hcase with hin | hid0
      · exact List.mem_append_left _ (hkeep1 r0 hr0 hin)
      · exact absurd (hid0 ▸ mem_rootIds_of_mem hr0) (fun hc => hfmem (by
          rw [rootIds_append, List.mem_append]
          exact Or.inl (hidSM ▸ hc)))
    · intro r hr
      rw [List.mem_append] at hr
      rcases hr with hr | hr
      · exact hchild1 r hr
      · rw [List.mem_singleton] at hr
        exact Or.inl (by rw [hr]; rfl)

/-! ## Slave pass: child-list operations -/

theorem stampRow_gen (g : Int) (r : Row) : (stampRow g r).generation = g := rfl

theorem stampOrAppend_fresh (g : Int) (d : XIDeviceInfo) (cs : List Row) :
    ∃ c ∈ stampOrAppendChild g d cs, c.id = d.deviceid ∧ c.generation = g := by
  induction cs with
  | nil => exact ⟨⟨d.deviceid, d.name, d.use, g, g⟩, List.mem_singleton.mpr rfl, rfl, rfl⟩
  | cons c rest ih =>
    by_cases h : c.id = d.deviceid
    · exact ⟨stampRow g c, by simp [stampOrAppendChild, h], h, rfl⟩
    · obtain ⟨c', hc', hp⟩ := ih
      exact ⟨c', by simp only [stampOrAppendChild, if_neg h]; exact List.mem_cons_of_mem c hc',
        hp⟩

theorem mem_stampOrAppend_of_ne {g : Int} {d : XIDeviceInfo} {cs : List Row} {c : Row}
    (hc : c ∈ cs) (hne : c.id ≠ d.deviceid) : c ∈ stampOrAppendChild g d cs := by
  induction cs with
  | nil => simp at hc
  | cons c0 rest ih =>
    rcases List.mem_cons.mp hc with hc0 | hc0
    · subst hc0
      rw [stampOrAppendChild, if_neg hne]
      exact List.mem_cons_self _ _
    · by_cases h : c0.id = d.deviceid
      · rw [stampOrAppendChild, if_pos h]
        exact List.mem_cons_of_mem _ hc0
      · rw [stampOrAppendChild, if_neg h]
        exact List.mem_cons_of_mem _ (ih hc0)

theorem stampOrAppend_src {g : Int} {d : XIDeviceInfo} {cs : List Row} {c' : Row}
    (h : c' ∈ stampOrAppendChild g d cs) :
    c' ∈ cs ∨ (∃ c0 ∈ cs, c0.id = d.deviceid ∧ c' = stampRow g c0) ∨
      c' = ⟨d.deviceid, d.name, d.use, g, g⟩ := by
  induction cs with
  | nil =>
    rw [stampOrAppendChild] at h
    exact Or.inr (Or.inr (List.mem_singleton.mp h))
  | cons c0 rest ih =>
    by_cases hc0 : c0.id = d.deviceid
    · rw [stampOrAppendChild, if_pos hc0] at h
      rcases List.mem_cons.mp h with h | h
      · exact Or.inr (Or.inl ⟨c0, List.mem_cons_self _ _, hc0, h⟩)
      · exact Or.inl (List.mem_cons_of_mem _ h)
    · rw [stampOrAppendChild, if_neg hc0] at h
      rcases List.mem_cons.mp h with h | h
      · exact Or.inl (h ▸ List.mem_cons_self _ _)
      · rcases ih h with h' | ⟨c1, hc1, hp⟩ | h'
        · exact Or.inl (List.mem_cons_of_mem _ h')
        · exact Or.inr (Or.inl ⟨c1, List.mem_cons_of_mem _ hc1, hp⟩)
        · exact Or.inr (Or.inr h')

theorem stampOrAppend_stamps_unique {g : Int} {d : XIDeviceInfo} {cs : List Row} {c : Row}
    (hc : c ∈ cs) (hid : c.id = d.deviceid) (huniq : ∀ c' ∈ cs, c'.id = c.id → c' = c) :
    stampRow g c ∈ stampOrAppendChild g d cs := by
  induction cs with
  | nil => simp at hc
  | cons c0 rest ih =>
    by_cases h0 : c0.id = d.deviceid
    · have hc0c : c0 = c := huniq c0 (List.mem_cons_self _ _) (h0.trans hid.symm)
      rw [stampOrAppendChild, if_pos h0, hc0c]
      exact List.mem_cons_self _ _
    · rcases List.mem_cons.mp hc with hc' | hc'
      · exact absurd (hc' ▸ hid) h0
      · rw [stampOrAppendChild, if_neg h0]
        exact List.mem_cons_of_mem _
          (ih hc' (fun c' hc'' hid'' => huniq c' (List.mem_cons_of_mem _ hc'') hid''))

theorem stampOrAppend_ids (g : Int) (d : XIDeviceInfo) (cs : List Row) :
    (stampOrAppendChild g d cs).map (·.id) =
      if d.deviceid ∈ cs.map (·.id) then cs.map (·.id) else cs.map (·.id) ++ [d.deviceid] := by
  induction cs with
  | nil => simp [stampOrAppendChild]
  | cons c0 rest ih =>
    by_cases h0 : c0.id = d.deviceid
    · rw [stampOrAppendChild, if_pos h0]
      have : d.deviceid ∈ (c0 :: rest).map (·.id) := by
        rw [List.map_cons, List.mem_cons]
        exact Or.inl h0.symm
      rw [if_pos this]
      simp [stampRow, h0]
    · rw [stampOrAppendChild, if_neg h0, List.map_cons, List.map_cons, ih]
      by_cases hm : d.deviceid ∈ rest.map (·.id)
      · have hc : d.deviceid ∈ c0.id :: rest.map (·.id) := List.mem_cons_of_mem _ hm
        rw [if_pos hm, if_pos hc]
      · have hc : d.deviceid ∉ c0.id :: rest.map (·.id) := by
          rw [List.mem_cons]
          push_neg
          exact ⟨fun hc => h0 hc.symm, hm⟩
        rw [if_neg hm, if_neg hc, List.cons_append]

theorem stampOrAppend_nodup {g : Int} {d : XIDeviceInfo} {cs : List Row}
    (h : (cs.map (·.id)).Nodup) : ((stampOrAppendChild g d cs).map (·.id)).Nodup := by
  rw [stampOrAppend_ids]
  by_cases hm : d.deviceid ∈ cs.map (·.id)
  · rw [if_pos hm]
    exact h
  · rw [if_neg hm, List.nodup_append]
    refine ⟨h, List.nodup_singleton _, ?_⟩
    intro x hx hx2
    rw [List.mem_singleton] at hx2
    exact hm (hx2 ▸ hx)

/-! ## Slave pass: store operations -/

theorem placeSlave_rootRows (g : Int) (d : XIDeviceInfo) (s : TreeStore) :
    (placeSlave g d s).map (·.row) = s.map (·.row) := by
  induction s with
  | nil => rfl
  | cons r rs ih =>
    by_cases h : slaveMatches d r.row.id
    · rw [placeSlave, if_pos h]
      rfl
    · rw [placeSlave, if_neg h, List.map_cons, List.map_cons, ih]

theorem mem_placeSlave_src {g : Int} {d : XIDeviceInfo} {s : TreeStore} {r' : RootRow}
    (h : r' ∈ placeSlave g d s) :
    r' ∈ s ∨ ∃ r ∈ s, slaveMatches d r.row.id = true ∧
      r' = { r with children := stampOrAppendChild g d r.children } := by
  induction s with
  | nil => simp [placeSlave] at h
  | cons r0 rs ih =>
    by_cases h0 : slaveMatches d r0.row.id
    · rw [placeSlave, if_pos h0] at h
      rcases List.mem_cons.mp h with h | h
      · exact Or.inr ⟨r0, List.mem_cons_self _ _, h0, h⟩
      · exact Or.inl (List.mem_cons_of_mem _ h)
    · rw [placeSlave, if_neg h0] at h
      rcases List.mem_cons.mp h with h | h
      · exact Or.inl (h ▸ List.mem_cons_self _ _)
      · rcases ih h with h' | ⟨r1, hr1, hp⟩
        · exact Or.inl (List.mem_cons_of_mem _ h')
        · exact Or.inr ⟨r1, List.mem_cons_of_mem _ hr1, hp⟩

theorem placeSlave_keep {g : Int} {d : XIDeviceInfo} {s : TreeStore} {r : RootRow}
    (h : r ∈ s) :
    ∃ r' ∈ placeSlave g d s, r'.row = r.row ∧
      (r'.children = r.children ∨
        (slaveMatches d r.row.id = true ∧
          r'.children = stampOrAppendChild g d r.children)) := by
  induction s with
  | nil => simp at h
  | cons r0 rs ih =>
    by_cases h0 : slaveMatches d r0.row.id
    · rw [placeSlave, if_pos h0]
      rcases List.mem_cons.mp h with h | h
      · subst h
        exact ⟨{ r with children := stampOrAppendChild g d r.children },
          List.mem_cons_self _ _, rfl, Or.inr ⟨h0, rfl⟩⟩
      · exact ⟨r, List.mem_cons_of_mem _ h, rfl, Or.inl rfl⟩
    · rw [placeSlave, if_neg h0]
      rcases List.mem_cons.mp h with h | h
      · subst h
        exact ⟨r, List.mem_cons_self _ _, rfl, Or.inl rfl⟩
      · obtain ⟨r', hr', hp⟩ := ih h
        exact ⟨r', List.mem_cons_of_mem _ hr', hp⟩

theorem placeSlave_modify {g : Int} {d : XIDeviceInfo} {s : TreeStore} {r : RootRow}
    (hnd : (rootIds s).Nodup) (hr : r ∈ s) (hm : slaveMatches d r.row.id = true)
    (hall : ∀ r' ∈ s, slaveMatches d r'.row.id = true → r'.row.id = r.row.id) :
    { r with children := stampOrAppendChild g d r.children } ∈ placeSlave g d s := by
  induction s with
  | nil => simp at hr
  | cons r0 rs ih =>
    rw [rootIds_cons, List.nodup_cons] at hnd
    by_cases h0 : slaveMatches d r0.row.id
    · have hid : r0.row.id = r.row.id := hall r0 (List.mem_cons_self _ _) h0
      have hr0r : r0 = r := by
        rcases List.mem_cons.mp hr with h | h
        · exact h.symm
        · exact absurd (hid ▸ mem_rootIds_of_mem h) hnd.1
      rw [placeSlave, if_pos h0]
      cases hr0r
      exact List.mem_cons_self _ _
    · have hrrs : r ∈ rs := by
        rcases List.mem_cons.mp hr with h | h
        · exact absurd (h ▸ hm) h0
        · exact h
      rw [placeSlave, if_neg h0]
      exact List.mem_cons_of_mem _
        (ih hnd.2 hrrs (fun r' hr' hm' => hall r' (List.mem_cons_of_mem _ hr') hm'))

theorem slavePass_cons (g : Int) (s : TreeStore) (d : XIDeviceInfo)
    (rest : List XIDeviceInfo) :
    slavePass g s (d :: rest) =
      slavePass g (if isMasterUse d.use then s else placeSlave g d s) rest := rfl

theorem slavePass_append (g : Int) (s : TreeStore) (l1 l2 : List XIDeviceInfo) :
    slavePass g s (l1 ++ l2) = slavePass g (slavePass g s l1) l2 := by
  unfold slavePass
  rw [List.foldl_append]

theorem slavePass_inv (P : TreeStore → Prop) {g : Int} {devs : List XIDeviceInfo}
    {s : TreeStore} (h0 : P s)
    (hstep : ∀ d ∈ devs, isMasterUse d.use = false → ∀ t, P t → P (placeSlave g d t)) :
    P (slavePass g s devs) := by
  induction devs generalizing s with
  | nil => exact h0
  | cons d rest ih =>
    rw [slavePass_cons]
    by_cases hm : isMasterUse d.use
    · rw [if_pos hm]
      exact ih h0 (fun d' hd' => hstep d' (List.mem_cons_of_mem _ hd'))
    · rw [if_neg hm]
      have hm' : isMasterUse d.use = false := by simpa using hm
      exact ih (hstep d (List.mem_cons_self _ _) hm' s h0)
        (fun d' hd' => hstep d' (List.mem_cons_of_mem _ hd'))

theorem slavePass_rootRows (g : Int) (devs : List XIDeviceInfo) (s : TreeStore) :
    (slavePass g s devs).map (·.row) = s.map (·.row) := by
  refine slavePass_inv (fun t => t.map (·.row) = s.map (·.row)) rfl ?_
  intro d _ _ t ht
  rw [placeSlave_rootRows, ht]

theorem rootIds_slavePass (g : Int) (devs : List XIDeviceInfo) (s : TreeStore) :
    rootIds (slavePass g s devs) = rootIds s := by
  have h := congrArg (List.map (·.id)) (slavePass_rootRows g devs s)
  rw [List.map_map, List.map_map] at h
  exact h

theorem mem_row_slavePass {g : Int} {devs : List XIDeviceInfo} {s : TreeStore} {r3 : RootRow}
    (h : r3 ∈ slavePass g s devs) : ∃ r2 ∈ s, r3.row = r2.row := by
  have h1 : r3.row ∈ (slavePass g s devs).map (·.row) := List.mem_map_of_mem _ h
  rw [slavePass_rootRows] at h1
  obtain ⟨r2, hr2, he⟩ := List.mem_map.mp h1
  exact ⟨r2, hr2, he.symm⟩

theorem slavePass_child_src {gen g : Int} {devs : List XIDeviceInfo} {s2 : TreeStore}
    (hgench : ∀ r ∈ s2, ∀ c ∈ r.children, c.generation ≤ gen) :
    ∀ r ∈ slavePass g s2 devs, ∀ c ∈ r.children,
      c.generation ≤ gen ∨
        ∃ d ∈ devs, isMasterUse d.use = false ∧ c.id = d.deviceid ∧
          slaveMatches d r.row.id = true := by
  refine slavePass_inv
    (fun t => ∀ r ∈ t, ∀ c ∈ r.children,
      c.generation ≤ gen ∨
        ∃ d ∈ devs, isMasterUse d.use = false ∧ c.id = d.deviceid ∧
          slaveMatches d r.row.id = true)
    (fun r hr c hc => Or.inl (hgench r hr c hc)) ?_
  intro d hd hdm t ht r' hr' c hc
  rcases mem_placeSlave_src hr' with hr'' | ⟨r, hr, hmm, heq⟩
  · exact ht r' hr'' c hc
  · have hrow : r'.row = r.row := by rw [heq]
    rw [heq] at hc
    rcases stampOrAppend_src hc with hc' | ⟨c0, hc0, hc0id, hceq⟩ | hceq
    · rcases ht r hr c hc' with h | ⟨d', hd', hp⟩
      · exact Or.inl h
      · exact Or.inr ⟨d', hd', hp.1, hp.2.1, hrow ▸ hp.2.2⟩
    · refine Or.inr ⟨d, hd, hdm, ?_, hrow ▸ hmm⟩
      rw [hceq, stampRow_id, hc0id]
    · refine Or.inr ⟨d, hd, hdm, ?_, hrow ▸ hmm⟩
      rw [hceq]

theorem slavePass_child_nodup {g : Int} {devs : List XIDeviceInfo} {s2 : TreeStore}
    (h0 : ∀ r ∈ s2, (childIds r).Nodup) :
    ∀ r ∈ slavePass g s2 devs, (childIds r).Nodup := by
  refine slavePass_inv (fun t => ∀ r ∈ t, (childIds r).Nodup) h0 ?_
  intro d _ _ t ht r' hr'
  rcases mem_placeSlave_src hr' with hr'' | ⟨r, hr, -, heq⟩
  · exact ht r' hr''
  · rw [heq]
    exact stampOrAppend_nodup (ht r hr)

theorem slavePass_gens {g : Int} {devs : List XIDeviceInfo} {s2 : TreeStore}
    (hroot : ∀ r ∈ s2, r.row.generation ≤ g)
    (hch : ∀ r ∈ s2, ∀ c ∈ r.children, c.generation ≤ g) :
    ∀ r ∈ slavePass g s2 devs,
      r.row.generation ≤ g ∧ ∀ c ∈ r.children, c.generation ≤ g := by
  refine slavePass_inv
    (fun t => ∀ r ∈ t, r.row.generation ≤ g ∧ ∀ c ∈ r.children, c.generation ≤ g)
    (fun r hr => ⟨hroot r hr, hch r hr⟩) ?_
  intro d _ _ t ht r' hr'
  rcases mem_placeSlave_src hr' with hr'' | ⟨r, hr, -, heq⟩
  · exact ht r' hr''
  · refine ⟨by rw [heq]; exact (ht r hr).1, ?_⟩
    intro c hc
    rw [heq] at hc
    rcases stampOrAppend_src hc with hc' | ⟨c0, -, -, hceq⟩ | hceq
    · exact (ht r hr).2 c hc'
    · rw [hceq, stampRow_gen]
    · rw [hceq]

theorem exists_split_of_mem {α : Type} {a : α} {l : List α} (h : a ∈ l) :
    ∃ l1 l2, l = l1 ++ a :: l2 := by
  induction l with
  | nil => simp at h
  | cons b rest ih =>
    rcases List.mem_cons.mp h with h | h
    · exact ⟨[], rest, by rw [h, List.nil_append]⟩
    · obtain ⟨l1, l2, hl⟩ := ih h
      exact ⟨b :: l1, l2, by rw [hl]; rfl⟩

theorem slaveMatches_target (d : XIDeviceInfo) :
    slaveMatches d (slaveTarget d) = true := by
  by_cases h : d.use = XIFloatingSlave
  · simp [slaveMatches, slaveTarget, h]
  · simp [slaveMatches, slaveTarget, h]

theorem matches_imp_target {d : XIDeviceInfo} {i : Int}
    (hfl0 : d.use = XIFloatingSlave → d.attachment = 0)
    (hi : i = ID_FLOATING ∨ 2 ≤ i) (h : slaveMatches d i = true) : i = slaveTarget d := by
  rw [slaveMatches, Bool.or_eq_true, Bool.and_eq_true] at h
  simp only [decide_eq_true_eq] at h
  by_cases hu : d.use = XIFloatingSlave
  · rcases h with h | h
    · rw [hfl0 hu] at h
      exfalso
      rcases hi with hi | hi
      · rw [← h] at hi
        norm_num [ID_FLOATING] at hi
      · rw [← h] at hi
        norm_num at hi
    · rw [slaveTarget, if_pos hu]
      exact h.2
  · rcases h with h | h
    · rw [slaveTarget, if_neg hu]
      exact h.symm
    · exact absurd h.1 hu

theorem nodup_mid_not_mem_right {α : Type} [DecidableEq α] {a : α} {l1 l2 : List α}
    (h : (l1 ++ a :: l2).Nodup) : a ∉ l2 := by
  rw [List.nodup_append] at h
  exact (List.nodup_cons.mp h.2.1).1

theorem nodup_mid_not_mem_left {α : Type} [DecidableEq α] {a : α} {l1 l2 : List α}
    (h : (l1 ++ a :: l2).Nodup) : a ∉ l1 := by
  rw [List.nodup_append] at h
  intro hc
  exact h.2.2 hc (List.mem_cons_self _ _)

theorem deviceIds_map_ne {d : XIDeviceInfo} {l : List XIDeviceInfo}
    (h : d.deviceid ∉ deviceIds l) : ∀ d' ∈ l, d'.deviceid ≠ d.deviceid := by
  intro d' hd' hc
  exact h (hc ▸ List.mem_map_of_mem (·.deviceid) hd')

theorem slavePass_place {g : Int} {devs : List XIDeviceInfo} {s2 : TreeStore}
    {d : XIDeviceInfo} (hd : d ∈ devs) (hdm : isMasterUse d.use = false)
    (hdd : (deviceIds devs).Nodup)
    (hfl0 : d.use = XIFloatingSlave → d.attachment = 0)
    (htmem : slaveTarget d ∈ rootIds s2)
    (hnd2 : (rootIds s2).Nodup)
    (hids2 : ∀ i ∈ rootIds s2, i = ID_FLOATING ∨ 2 ≤ i) :
    ∃ r ∈ slavePass g s2 devs, r.row.id = slaveTarget d ∧
      ∃ c ∈ r.children, c.id = d.deviceid ∧ c.generation = g := by
  obtain ⟨l1, l2, hsplit⟩ := exists_split_of_mem hd
  have hnotl2 : d.deviceid ∉ deviceIds l2 := by
    have : deviceIds devs = deviceIds l1 ++ d.deviceid :: deviceIds l2 := by
      rw [hsplit]
      simp [deviceIds]
    exact nodup_mid_not_mem_right (this ▸ hdd)
  rw [hsplit, slavePass_append, slavePass_cons, if_neg (by simp [hdm])]
  set A := slavePass g s2 l1 with hA
  have hidsA : rootIds A = rootIds s2 := rootIds_slavePass g l1 s2
  obtain ⟨rT, hrT, hrTid⟩ := mem_rootIds.mp (hidsA ▸ htmem)
  have hstamped : { rT with children := stampOrAppendChild g d rT.children } ∈
      placeSlave g d A := by
    refine placeSlave_modify (hidsA ▸ hnd2) hrT (by rw [hrTid]; exact slaveMatches_target d) ?_
    intro r' hr' hm'
    have hid' : r'.row.id = slaveTarget d :=
      matches_imp_target hfl0 (hids2 _ (hidsA ▸ mem_rootIds_of_mem hr')) hm'
    rw [hid', hrTid]
  obtain ⟨c, hc, hcid, hcg⟩ := stampOrAppend_fresh g d rT.children
  refine slavePass_inv
    (fun t => ∃ r ∈ t, r.row.id = slaveTarget d ∧
      ∃ c' ∈ r.children, c'.id = d.deviceid ∧ c'.generation = g)
    ⟨{ rT with children := stampOrAppendChild g d rT.children }, hstamped, hrTid,
      c, hc, hcid, hcg⟩ ?_
  intro d' hd' _ t ht
  obtain ⟨r, hr, hrid, c', hc', hcp⟩ := ht
  have hne : c'.id ≠ d'.deviceid := by
    rw [hcp.1]
    exact fun hc => (deviceIds_map_ne hnotl2 d' hd') hc.symm
  obtain ⟨r', hr', hrow, hch⟩ := placeSlave_keep hr
  refine ⟨r', hr', by rw [hrow]; exact hrid, ?_⟩
  rcases hch with hch | ⟨-, hch⟩
  · exact ⟨c', hch ▸ hc', hcp⟩
  · exact ⟨c', hch ▸ mem_stampOrAppend_of_ne hc' hne, hcp⟩

theorem slavePass_keep_child {g : Int} {devs : List XIDeviceInfo} {s2 : TreeStore}
    {t : Int} {c : Row} {r0 : RootRow}
    (hr0 : r0 ∈ s2) (hr0id : r0.row.id = t) (hcmem : c ∈ r0.children)
    (huniq : ∀ c' ∈ r0.children, c'.id = c.id → c' = c)
    {d : XIDeviceInfo} (hd : d ∈ devs) (hdm : isMasterUse d.use = false)
    (hcid : c.id = d.deviceid) (htgt : slaveTarget d = t)
    (hdd : (deviceIds devs).Nodup)
    (hfl0 : d.use = XIFloatingSlave → d.attachment = 0)
    (hnd2 : (rootIds s2).Nodup)
    (hids2 : ∀ i ∈ rootIds s2, i = ID_FLOATING ∨ 2 ≤ i) :
    ∃ r ∈ slavePass g s2 devs, r.row.id = t ∧ stampRow g c ∈ r.children := by
  obtain ⟨l1, l2, hsplit⟩ := exists_split_of_mem hd
  have hids_eq : deviceIds devs = deviceIds l1 ++ d.deviceid :: deviceIds l2 := by
    rw [hsplit]
    simp [deviceIds]
  have hnotl1 : d.deviceid ∉ deviceIds l1 := nodup_mid_not_mem_left (hids_eq ▸ hdd)
  have hnotl2 : d.deviceid ∉ deviceIds l2 := nodup_mid_not_mem_right (hids_eq ▸ hdd)
  rw [hsplit, slavePass_append, slavePass_cons, if_neg (by simp [hdm])]
  have hphase1 : ∃ r ∈ slavePass g s2 l1, r.row.id = t ∧ c ∈ r.children ∧
      ∀ c' ∈ r.children, c'.id = c.id → c' = c := by
    refine slavePass_inv (fun u => ∃ r ∈ u, r.row.id = t ∧ c ∈ r.children ∧
      ∀ c' ∈ r.children, c'.id = c.id → c' = c) ⟨r0, hr0, hr0id, hcmem, huniq⟩ ?_
    intro d' hd' _ u hu
    obtain ⟨r, hr, hrid, hcm, hun⟩ := hu
    have hne : c.id ≠ d'.deviceid := by
      rw [hcid]
      exact fun hc => (deviceIds_map_ne hnotl1 d' hd') hc.symm
    obtain ⟨r', hr', hrow, hch⟩ := placeSlave_keep hr
    refine ⟨r', hr', by rw [hrow]; exact hrid, ?_⟩
    rcases hch with hch | ⟨-, hch⟩
    · rw [hch]
      exact ⟨hcm, hun⟩
    · rw [hch]
      refine ⟨mem_stampOrAppend_of_ne hcm hne, ?_⟩
      intro c' hc' hcid'
      rcases stampOrAppend_src hc' with h | ⟨c0, hc0, hc0id, hceq⟩ | hceq
      · exact hun c' h hcid'
      · exfalso
        apply hne
        rw [← hcid', hceq, stampRow_id]
        exact hc0id
      · exfalso
        apply hne
        rw [← hcid', hceq]
  obtain ⟨rA, hrA, hrAid, hcA, hunA⟩ := hphase1
  have hidsA : rootIds (slavePass g s2 l1) = rootIds s2 := rootIds_slavePass g l1 s2
  have hstamped : { rA with children := stampOrAppendChild g d rA.children } ∈
      placeSlave g d (slavePass g s2 l1) := by
    refine placeSlave_modify (hidsA ▸ hnd2) hrA ?_ ?_
    · rw [hrAid, ← htgt]
      exact slaveMatches_target d
    · intro r' hr' hm'
      have h2 := matches_imp_target hfl0 (hids2 _ (hidsA ▸ mem_rootIds_of_mem hr')) hm'
      rw [h2, htgt, hrAid]
  have hstampmem : stampRow g c ∈ stampOrAppendChild g d rA.children :=
    stampOrAppend_stamps_unique hcA hcid hunA
  refine slavePass_inv (fun u => ∃ r ∈ u, r.row.id = t ∧ stampRow g c ∈ r.children)
    ⟨{ rA with children := stampOrAppendChild g d rA.children }, hstamped, hrAid,
      hstampmem⟩ ?_
  intro d' hd' _ u hu
  obtain ⟨r, hr, hrid, hcm⟩ := hu
  have hne : (stampRow g c).id ≠ d'.deviceid := by
    rw [stampRow_id, hcid]
    exact fun hc => (deviceIds_map_ne hnotl2 d' hd') hc.symm
  obtain ⟨r', hr', hrow, hch⟩ := placeSlave_keep hr
  refine ⟨r', hr', by rw [hrow]; exact hrid, ?_⟩
  rcases hch with hch | ⟨-, hch⟩
  · rw [hch]
    exact hcm
  · rw [hch]
    exact mem_stampOrAppend_of_ne hcm hne

/-! ## Sweep -/

theorem sweep_append (g : Int) (s t : TreeStore) :
    sweep g (s ++ t) = sweep g s ++ sweep g t := by
  unfold sweep
  rw [List.map_append, List.filter_append]

theorem mem_sweep_src {g : Int} {s : TreeStore} {r' : RootRow} (h : r' ∈ sweep g s) :
    ∃ r ∈ s, ¬(r.row.generation < g) ∧
      r' = { r with children := r.children.filter (fun c => !(c.generation < g)) } := by
  unfold sweep at h
  rw [List.mem_filter] at h
  obtain ⟨hmem, hgen⟩ := h
  obtain ⟨r, hr, heq⟩ := List.mem_map.mp hmem
  refine ⟨r, hr, ?_, heq.symm⟩
  have hrow : r'.row = r.row := by rw [← heq]
  simp only [Bool.not_eq_true', decide_eq_false_iff_not] at hgen
  exact hrow ▸ hgen

theorem mem_sweep_of {g : Int} {s : TreeStore} {r : RootRow} (hr : r ∈ s)
    (hgen : ¬(r.row.generation < g)) :
    { r with children := r.children.filter (fun c => !(c.generation < g)) } ∈ sweep g s := by
  unfold sweep
  rw [List.mem_filter]
  refine ⟨List.mem_map_of_mem _ hr, ?_⟩
  simpa using hgen

theorem store_split_of_map_row {s3 : TreeStore} {l : List Row} {y : Row}
    (h : s3.map (·.row) = l ++ [y]) :
    ∃ X3 fl3, s3 = X3 ++ [fl3] ∧ fl3.row = y ∧ X3.map (·.row) = l := by
  induction s3 generalizing l with
  | nil =>
    exfalso
    have := congrArg List.length h
    simp at this
  | cons r rs ih =>
    cases l with
    | nil =>
      rw [List.map_cons, List.nil_append] at h
      have h1 : r.row = y := (List.cons.injEq _ _ _ _ ▸ h).1
      have h2 : rs.map (·.row) = [] := (List.cons.injEq _ _ _ _ ▸ h).2
      have h3 : rs = [] := List.map_eq_nil_iff.mp h2
      exact ⟨[], r, by rw [h3, List.nil_append], h1, rfl⟩
    | cons z l' =>
      rw [List.map_cons, List.cons_append] at h
      have h1 : r.row = z := (List.cons.injEq _ _ _ _ ▸ h).1
      have h2 : rs.map (·.row) = l' ++ [y] := (List.cons.injEq _ _ _ _ ▸ h).2
      obtain ⟨X', fl', hs, hfl, hmap⟩ := ih h2
      exact ⟨r :: X', fl', by rw [hs]; rfl, hfl, by rw [List.map_cons, hmap, h1]⟩

theorem unique_by_rootId {s : TreeStore} {r1 r2 : RootRow}
    (hnd : (rootIds s).Nodup) (h1 : r1 ∈ s) (h2 : r2 ∈ s)
    (hid : r1.row.id = r2.row.id) : r1 = r2 := by
  have hnd' : (s.map (·.row.id)).Nodup := hnd
  exact List.inj_on_of_nodup_map hnd' h1 h2 hid

theorem dev_inj {devs : List XIDeviceInfo} {d1 d2 : XIDeviceInfo}
    (hdd : (deviceIds devs).Nodup) (h1 : d1 ∈ devs) (h2 : d2 ∈ devs)
    (hid : d1.deviceid = d2.deviceid) : d1 = d2 := by
  have hnd' : (devs.map (·.deviceid)).Nodup := hdd
  exact List.inj_on_of_nodup_map hnd' h1 h2 hid

/-! ## Characterization of one reconciliation pass -/

theorem query_devices_fst (gen : Int) (s : TreeStore) (devs : List XIDeviceInfo) :
    (query_devices gen s devs).1 = gen + 1 := rfl

theorem query_devices_snd (gen : Int) (s : TreeStore) (devs : List XIDeviceInfo) :
    (query_devices gen s devs).2 =
      sweep (gen + 1) (slavePass (gen + 1)
        (floatingPass (gen + 1) (masterPass (gen + 1) s devs)) devs) := rfl

theorem mid_child_gens {gen g : Int} {devs : List XIDeviceInfo} {s s2 : TreeStore}
    (mid : MidStore gen g devs s s2) (hInv : InvStore gen s) :
    ∀ r ∈ s2, ∀ c ∈ r.children, c.generation ≤ gen := by
  intro r hr c hc
  rcases mid.2.2.2.2.2.2.2 r hr with h | ⟨r0, hr0, -, hch⟩
  · rw [h] at hc
    simp at hc
  · rw [hch] at hc
    exact hInv.2.1 c (mem_allRows.mpr ⟨r0, hr0, Or.inr hc⟩)

theorem mid_child_nodup {gen g : Int} {devs : List XIDeviceInfo} {s s2 : TreeStore}
    (mid : MidStore gen g devs s s2) (hInv : InvStore gen s) :
    ∀ r ∈ s2, (childIds r).Nodup := by
  intro r hr
  rcases mid.2.2.2.2.2.2.2 r hr with h | ⟨r0, hr0, -, hch⟩
  · rw [childIds, h]
    exact List.nodup_nil
  · rw [childIds, hch]
    exact childIds_nodup_of_storeIds hInv.1 r0 hr0

theorem mid_root_gens_le {gen g : Int} {devs : List XIDeviceInfo} {s s2 : TreeStore}
    (mid : MidStore gen g devs s s2) (h : gen ≤ g) :
    ∀ r ∈ s2, r.row.generation ≤ g := by
  intro r hr
  rcases mid.2.2.2.2.2.1 r hr with h' | h' <;> omega

theorem mid_target_mem {gen g : Int} {devs : List XIDeviceInfo} {s s2 : TreeStore}
    (mid : MidStore gen g devs s s2)
    (hatt : ∀ d ∈ devs, isMasterUse d.use = false → d.use ≠ XIFloatingSlave →
      ∃ m ∈ devs, isMasterUse m.use = true ∧ m.deviceid = d.attachment)
    {d : XIDeviceInfo} (hd : d ∈ devs) (hdm : isMasterUse d.use = false) :
    ∃ rT ∈ s2, rT.row.id = slaveTarget d ∧ rT.row.generation = g := by
  by_cases hu : d.use = XIFloatingSlave
  · obtain ⟨X, fl, hS, hid, hgen⟩ := mid.1
    refine ⟨fl, ?_, ?_, hgen⟩
    · rw [hS]
      exact List.mem_append_right _ (List.mem_singleton.mpr rfl)
    · rw [hid, slaveTarget, if_pos hu]
  · obtain ⟨m, hm, hmu, hmid⟩ := hatt d hd hdm hu
    obtain ⟨r, hr, hrid, hrgen⟩ := mid.2.2.2.1 m hm hmu
    refine ⟨r, hr, ?_, hrgen⟩
    rw [hrid, slaveTarget, if_neg hu, hmid]

theorem recon_mem_src {gen : Int} {devs : List XIDeviceInfo} {s : TreeStore}
    (hWF : WFDevs devs) (hInv : InvStore gen s) {r : RootRow}
    (hr : r ∈ (query_devices gen s devs).2) :
    ∃ r3 ∈ slavePass (gen + 1) (floatingPass (gen + 1) (masterPass (gen + 1) s devs)) devs,
      r3.row.generation = gen + 1 ∧ r.row = r3.row ∧
      r.children = r3.children.filter (fun c => !(c.generation < gen + 1)) := by
  rw [query_devices_snd] at hr
  obtain ⟨r3, hr3, hgen, heq⟩ := mem_sweep_src hr
  have mid := mid_of_phases hWF hInv
  have hle := slavePass_gens (mid_root_gens_le mid (by omega))
      (fun r' hr' c hc => le_trans (mid_child_gens mid hInv r' hr' c hc) (by omega)) r3 hr3
  have hg3 : r3.row.generation = gen + 1 := by
    have h1 := hle.1
    omega
  exact ⟨r3, hr3, hg3, by rw [heq], by rw [heq]⟩

theorem recon_gens {gen : Int} {devs : List XIDeviceInfo} {s : TreeStore}
    (hWF : WFDevs devs) (hInv : InvStore gen s) :
    ∀ rw ∈ allRows (query_devices gen s devs).2, rw.generation = gen + 1 := by
  intro rw hrw
  obtain ⟨r, hr, hcase⟩ := mem_allRows.mp hrw
  obtain ⟨r3, hr3, hg3, hrow, hch⟩ := recon_mem_src hWF hInv hr
  rcases hcase with h | h
  · rw [h, hrow, hg3]
  · rw [hch, List.mem_filter] at h
    have h2 := h.2
    simp only [Bool.not_eq_true', decide_eq_false_iff_not] at h2
    have mid := mid_of_phases hWF hInv
    have hle := (slavePass_gens (mid_root_gens_le mid (by omega))
      (fun r' hr' c hc => le_trans (mid_child_gens mid hInv r' hr' c hc) (by omega))
        r3 hr3).2 rw h.1
    omega

theorem recon_floating {gen : Int} {devs : List XIDeviceInfo} {s : TreeStore}
    (hWF : WFDevs devs) (hInv : InvStore gen s) :
    ∃ X fl, (query_devices gen s devs).2 = X ++ [fl] ∧ fl.row.id = ID_FLOATING := by
  have mid := mid_of_phases hWF hInv
  obtain ⟨X, fl, hS2, hflid, hflgen⟩ := mid.1
  rw [query_devices_snd]
  have hrows : (slavePass (gen + 1)
      (floatingPass (gen + 1) (masterPass (gen + 1) s devs)) devs).map (·.row) =
      X.map (·.row) ++ [fl.row] := by
    rw [slavePass_rootRows, hS2, List.map_append]
    rfl
  obtain ⟨X3, fl3, hs3, hfl3, -⟩ := store_split_of_map_row hrows
  rw [hs3, sweep_append]
  have hflgen3 : ¬(fl3.row.generation < gen + 1) := by
    rw [hfl3, hflgen]
    omega
  have hsw : sweep (gen + 1) [fl3] =
      [{ fl3 with children := fl3.children.filter (fun c => !(c.generation < gen + 1)) }] := by
    simp only [sweep, List.map_cons, List.map_nil, List.filter_cons, List.filter_nil]
    rw [if_pos (by simpa using hflgen3)]
  refine ⟨sweep (gen + 1) X3,
    { fl3 with children := fl3.children.filter (fun c => !(c.generation < gen + 1)) },
    by rw [hsw], ?_⟩
  show fl3.row.id = ID_FLOATING
  rw [hfl3, hflid]

theorem recon_roots {gen : Int} {devs : List XIDeviceInfo} {s : TreeStore}
    (hWF : WFDevs devs) (hInv : InvStore gen s) :
    ∀ r ∈ (query_devices gen s devs).2,
      r.row.id = ID_FLOATING ∨ r.row.id ∈ masterIds devs := by
  intro r hr
  obtain ⟨r3, hr3, hg3, hrow, -⟩ := recon_mem_src hWF hInv hr
  obtain ⟨r2, hr2, hrow2⟩ := mem_row_slavePass hr3
  have mid := mid_of_phases hWF hInv
  have h := mid.2.2.2.2.1 r2 hr2 (by rw [← hrow2]; exact hg3)
  rw [hrow, hrow2]
  exact h

theorem recon_masters {gen : Int} {devs : List XIDeviceInfo} {s : TreeStore}
    (hWF : WFDevs devs) (hInv : InvStore gen s) :
    ∀ m ∈ devs, isMasterUse m.use = true →
      ∃ r ∈ (query_devices gen s devs).2, r.row.id = m.deviceid := by
  intro m hm hmu
  have mid := mid_of_phases hWF hInv
  obtain ⟨r2, hr2, hid2, hgen2⟩ := mid.2.2.2.1 m hm hmu
  have hrowm : r2.row ∈ (slavePass (gen + 1)
      (floatingPass (gen + 1) (masterPass (gen + 1) s devs)) devs).map (·.row) := by
    rw [slavePass_rootRows]
    exact List.mem_map_of_mem _ hr2
  obtain ⟨r3, hr3, hrow3⟩ := List.mem_map.mp hrowm
  rw [query_devices_snd]
  refine ⟨{ r3 with children := r3.children.filter (fun c => !(c.generation < gen + 1)) },
    mem_sweep_of hr3 ?_, ?_⟩
  · have : r3.row = r2.row := hrow3
    rw [this, hgen2]
    omega
  · show r3.row.id = m.deviceid
    have : r3.row = r2.row := hrow3
    rw [this, hid2]

theorem recon_child_src {gen : Int} {devs : List XIDeviceInfo} {s : TreeStore}
    (hWF : WFDevs devs) (hInv : InvStore gen s) :
    ∀ r ∈ (query_devices gen s devs).2, ∀ c ∈ r.children,
      ∃ d ∈ devs, isMasterUse d.use = false ∧ c.id = d.deviceid ∧
        slaveTarget d = r.row.id := by
  intro r hr c hc
  have mid := mid_of_phases hWF hInv
  obtain ⟨r3, hr3, hg3, hrow, hch⟩ := recon_mem_src hWF hInv hr
  rw [hch, List.mem_filter] at hc
  have hcg : ¬(c.generation < gen + 1) := by
    have h2 := hc.2
    simp only [Bool.not_eq_true', decide_eq_false_iff_not] at h2
    exact h2
  rcases slavePass_child_src (mid_child_gens mid hInv) r3 hr3 c hc.1 with
    h | ⟨d, hd, hdm, hcid, hm⟩
  · omega
  · refine ⟨d, hd, hdm, hcid, ?_⟩
    have h2 := matches_imp_target (hWF.2.2.1 d hd)
      (mid.2.2.1 _ ((rootIds_slavePass _ _ _) ▸ mem_rootIds_of_mem hr3)) hm
    rw [hrow]
    exact h2.symm

theorem recon_slave_placed {gen : Int} {devs : List XIDeviceInfo} {s : TreeStore}
    (hWF : WFDevs devs) (hInv : InvStore gen s) :
    ∀ d ∈ devs, isMasterUse d.use = false →
      ∃ r ∈ (query_devices gen s devs).2,
        r.row.id = slaveTarget d ∧ d.deviceid ∈ childIds r := by
  intro d hd hdm
  have mid := mid_of_phases hWF hInv
  obtain ⟨rT, hrT, hrTid, hrTgen⟩ := mid_target_mem mid hWF.2.2.2 hd hdm
  have htmem : slaveTarget d ∈
      rootIds (floatingPass (gen + 1) (masterPass (gen + 1) s devs)) :=
    hrTid ▸ mem_rootIds_of_mem hrT
  obtain ⟨r3, hr3, hr3id, c, hc, hcid, hcg⟩ :=
    slavePass_place hd hdm hWF.1 (hWF.2.2.1 d hd) htmem mid.2.1 mid.2.2.1
  obtain ⟨r2, hr2, hrow2⟩ := mem_row_slavePass hr3
  have hr2rT : r2 = rT := by
    refine unique_by_rootId mid.2.1 hr2 hrT ?_
    rw [← hrow2, hr3id, hrTid]
  have hg3 : ¬(r3.row.generation < gen + 1) := by
    rw [hrow2, hr2rT, hrTgen]
    omega
  rw [query_devices_snd]
  refine ⟨{ r3 with children := r3.children.filter (fun c => !(c.generation < gen + 1)) },
    mem_sweep_of hr3 hg3, hr3id, ?_⟩
  have hcf : c ∈ r3.children.filter (fun c => !(c.generation < gen + 1)) :=
    List.mem_filter.mpr ⟨hc, by rw [hcg]; simp⟩
  exact hcid ▸ List.mem_map_of_mem (·.id) hcf

theorem mem_masterIds_iff {i : Int} {devs : List XIDeviceInfo} :
    i ∈ masterIds devs ↔ ∃ m ∈ devs, isMasterUse m.use = true ∧ m.deviceid = i := by
  simp only [masterIds, List.mem_map, List.mem_filter]
  constructor
  · rintro ⟨m, ⟨hm, hmu⟩, hid⟩
    exact ⟨m, hm, hmu, hid⟩
  · rintro ⟨m, hm, hmu, hid⟩
    exact ⟨m, ⟨hm, hmu⟩, hid⟩

theorem nodup_storeIds_assemble {R : TreeStore}
    (hroot : (rootIds R).Nodup)
    (hchild : ∀ r ∈ R, (childIds r).Nodup)
    (hcross : ∀ r ∈ R, ∀ r' ∈ R, ∀ i ∈ childIds r, i ≠ r'.row.id)
    (hdisj : ∀ r ∈ R, ∀ r' ∈ R, r.row.id ≠ r'.row.id →
      ∀ i ∈ childIds r, i ∉ childIds r') :
    (storeIds R).Nodup := by
  induction R with
  | nil => simp [storeIds, allRows]
  | cons r rs ih =>
    rw [storeIds_cons]
    rw [rootIds_cons, List.nodup_cons] at hroot
    rw [List.nodup_cons]
    constructor
    · rw [List.mem_append]
      push_neg
      constructor
      · intro hc
        exact hcross r (List.mem_cons_self _ _) r (List.mem_cons_self _ _) _ hc rfl
      · intro hc
        rcases mem_storeIds.mp hc with ⟨r', hr', h | h⟩
        · exact hroot.1 (h ▸ mem_rootIds_of_mem hr')
        · exact hcross r' (List.mem_cons_of_mem _ hr') r (List.mem_cons_self _ _) _ h rfl
    · rw [List.nodup_append]
      refine ⟨hchild r (List.mem_cons_self _ _),
        ih hroot.2 (fun r' hr' => hchild r' (List.mem_cons_of_mem _ hr'))
          (fun r1 h1 r2 h2 => hcross r1 (List.mem_cons_of_mem _ h1) r2
            (List.mem_cons_of_mem _ h2))
          (fun r1 h1 r2 h2 => hdisj r1 (List.mem_cons_of_mem _ h1) r2
            (List.mem_cons_of_mem _ h2)), ?_⟩
      intro i hi hc
      rcases mem_storeIds.mp hc with ⟨r', hr', h | h⟩
      · exact hcross r (List.mem_cons_self _ _) r' (List.mem_cons_of_mem _ hr') i hi h
      · have hne : r.row.id ≠ r'.row.id := by
          intro hc'
          exact hroot.1 (hc' ▸ mem_rootIds_of_mem hr')
        exact hdisj r (List.mem_cons_self _ _) r' (List.mem_cons_of_mem _ hr') hne i hi h

theorem rootIds_sweep_sublist (g : Int) (t : TreeStore) :
    (rootIds (sweep g t)).Sublist (rootIds t) := by
  unfold sweep
  have h0 : ((t.map (fun r => { r with children := r.children.filter (fun c => !(c.generation < g)) })).filter (fun r => !(r.row.generation < g))).Sublist (t.map (fun r => { r with children := r.children.filter (fun c => !(c.generation < g)) })) := by
    apply List.filter_sublist
  have h1 := h0.map (·.row.id)
  have h2 : (t.map (fun r =>
      { r with children := r.children.filter (fun c => !(c.generation < g)) })).map
        (·.row.id) = rootIds t := by
    rw [List.map_map]
    rfl
  rw [h2] at h1
  exact h1

theorem recon_nodup {gen : Int} {devs : List XIDeviceInfo} {s : TreeStore}
    (hWF : WFDevs devs) (hInv : InvStore gen s) :
    (storeIds (query_devices gen s devs).2).Nodup := by
  have mid := mid_of_phases hWF hInv
  refine nodup_storeIds_assemble ?_ ?_ ?_ ?_
  · rw [query_devices_snd]
    refine (rootIds_sweep_sublist _ _).nodup ?_
    rw [rootIds_slavePass]
    exact mid.2.1
  · intro r hr
    obtain ⟨r3, hr3, -, -, hch⟩ := recon_mem_src hWF hInv hr
    have h3 : (r3.children.map (·.id)).Nodup :=
      slavePass_child_nodup (mid_child_nodup mid hInv) r3 hr3
    rw [childIds, hch]
    exact ((List.filter_sublist r3.children).map (·.id)).nodup h3
  · intro r hr r' hr' i hi hc
    obtain ⟨c, hcm, hcid⟩ := List.mem_map.mp hi
    obtain ⟨d, hd, hdm, hdcid, -⟩ := recon_child_src hWF hInv r hr c hcm
    have hdi : d.deviceid = i := by rw [← hdcid, hcid]
    rcases recon_roots hWF hInv r' hr' with h | h
    · have h2 : 2 ≤ d.deviceid := hWF.2.1 d hd
      rw [hdi, hc, h] at h2
      norm_num [ID_FLOATING] at h2
    · obtain ⟨m, hm, hmu, hmid⟩ := mem_masterIds_iff.mp h
      have hdmm : d = m := dev_inj hWF.1 hd hm (by rw [hdi, hc, hmid])
      rw [hdmm, hmu] at hdm
      simp at hdm
  · intro r hr r' hr' hne i hi hi'
    obtain ⟨c, hcm, hcid⟩ := List.mem_map.mp hi
    obtain ⟨c', hcm', hcid'⟩ := List.mem_map.mp hi'
    obtain ⟨d, hd, hdm, hdcid, htgt⟩ := recon_child_src hWF hInv r hr c hcm
    obtain ⟨d', hd', hdm', hdcid', htgt'⟩ := recon_child_src hWF hInv r' hr' c' hcm'
    have : d = d' := dev_inj hWF.1 hd hd' (by rw [← hdcid, hcid, ← hdcid', hcid'])
    apply hne
    rw [← htgt, ← htgt', this]

theorem recon_ids {gen : Int} {devs : List XIDeviceInfo} {s : TreeStore}
    (hWF : WFDevs devs) (hInv : InvStore gen s) :
    ∀ i, i ∈ storeIds (query_devices gen s devs).2 ↔
      i ∈ deviceIds devs ∨ i = ID_FLOATING := by
  intro i
  constructor
  · intro hi
    obtain ⟨r, hr, h | h⟩ := mem_storeIds.mp hi
    · rcases recon_roots hWF hInv r hr with h' | h'
      · exact Or.inr (by rw [h, h'])
      · exact Or.inl (by rw [h]; exact masterIds_subset_deviceIds h')
    · obtain ⟨c, hcm, hcid⟩ := List.mem_map.mp h
      obtain ⟨d, hd, -, hdcid, -⟩ := recon_child_src hWF hInv r hr c hcm
      refine Or.inl ?_
      rw [← hcid, hdcid]
      exact List.mem_map_of_mem (·.deviceid) hd
  · intro hi
    rcases hi with hi | hi
    · obtain ⟨d, hd, hdid⟩ := List.mem_map.mp hi
      by_cases hm : isMasterUse d.use
      · obtain ⟨r, hr, hrid⟩ := recon_masters hWF hInv d hd hm
        exact mem_storeIds.mpr ⟨r, hr, Or.inl (by rw [hrid, hdid])⟩
      · obtain ⟨r, hr, -, hmem⟩ := recon_slave_placed hWF hInv d hd (by simpa using hm)
        exact mem_storeIds.mpr ⟨r, hr, Or.inr (hdid ▸ hmem)⟩
    · obtain ⟨X, fl, hR, hid⟩ := recon_floating hWF hInv
      refine mem_storeIds.mpr ⟨fl, ?_, Or.inl (by rw [hid, hi])⟩
      rw [hR]
      exact List.mem_append_right _ (List.mem_singleton.mpr rfl)

theorem recon_inv {gen : Int} {devs : List XIDeviceInfo} {s : TreeStore}
    (hWF : WFDevs devs) (hInv : InvStore gen s) :
    InvStore (gen + 1) (query_devices gen s devs).2 := by
  refine ⟨recon_nodup hWF hInv, ?_, ?_⟩
  · intro rw hrw
    rw [recon_gens hWF hInv rw hrw]
  · intro i hi
    rcases (recon_ids hWF hInv i).mp hi with h | h
    · exact Or.inr (deviceIds_ge2 hWF.2.1 h)
    · exact Or.inl h

theorem recon_keep_root {gen : Int} {devs : List XIDeviceInfo} {s : TreeStore}
    (hWF : WFDevs devs) (hInv : InvStore gen s) :
    ∀ r0 ∈ s, (r0.row.id ∈ masterIds devs ∨ r0.row.id = ID_FLOATING) →
      ∃ r ∈ (query_devices gen s devs).2, r.row = stampRow (gen + 1) r0.row := by
  intro r0 hr0 hcase
  have mid := mid_of_phases hWF hInv
  have hkeep := mid.2.2.2.2.2.2.1 r0 hr0 hcase
  have hrowm : (stampRootRow (gen + 1) r0).row ∈ (slavePass (gen + 1)
      (floatingPass (gen + 1) (masterPass (gen + 1) s devs)) devs).map (·.row) := by
    rw [slavePass_rootRows]
    exact List.mem_map_of_mem _ hkeep
  obtain ⟨r3, hr3, hrow3⟩ := List.mem_map.mp hrowm
  have hrow3' : r3.row = stampRow (gen + 1) r0.row := hrow3
  rw [query_devices_snd]
  refine ⟨{ r3 with children := r3.children.filter (fun c => !(c.generation < gen + 1)) },
    mem_sweep_of hr3 ?_, ?_⟩
  · have hg : r3.row.generation = gen + 1 := by rw [hrow3']; rfl
    omega
  · exact hrow3'

theorem recon_keep_child {gen : Int} {devs : List XIDeviceInfo} {s : TreeStore}
    (hWF : WFDevs devs) (hInv : InvStore gen s) :
    ∀ r0 ∈ s, ∀ c ∈ r0.children, ∀ d ∈ devs, isMasterUse d.use = false →
      c.id = d.deviceid → slaveTarget d = r0.row.id →
      ∃ r ∈ (query_devices gen s devs).2,
        r.row.id = r0.row.id ∧ stampRow (gen + 1) c ∈ r.children := by
  intro r0 hr0 c hc d hd hdm hcid htgt
  have mid := mid_of_phases hWF hInv
  have hcase : r0.row.id ∈ masterIds devs ∨ r0.row.id = ID_FLOATING := by
    by_cases hu : d.use = XIFloatingSlave
    · right
      rw [← htgt, slaveTarget, if_pos hu]
    · left
      obtain ⟨m, hm, hmu, hmid⟩ := hWF.2.2.2 d hd hdm hu
      rw [← htgt, slaveTarget, if_neg hu, ← hmid]
      exact mem_masterIds_of hm hmu
  have hkeep := mid.2.2.2.2.2.2.1 r0 hr0 hcase
  have huniq : ∀ c' ∈ r0.children, c'.id = c.id → c' = c := by
    intro c' hc' hid'
    have hnd := childIds_nodup_of_storeIds hInv.1 r0 hr0
    exact List.inj_on_of_nodup_map hnd hc' hc hid'
  have hcmem : c ∈ (stampRootRow (gen + 1) r0).children := by
    rw [stampRootRow_children]
    exact hc
  have huniq' : ∀ c' ∈ (stampRootRow (gen + 1) r0).children, c'.id = c.id → c' = c := by
    rw [stampRootRow_children]
    exact huniq
  obtain ⟨r3, hr3, hr3id, hmem⟩ := slavePass_keep_child hkeep
    (stampRootRow_row_id (gen + 1) r0) hcmem huniq' hd hdm hcid htgt hWF.1
    (hWF.2.2.1 d hd) mid.2.1 mid.2.2.1
  obtain ⟨r2, hr2, hrow2⟩ := mem_row_slavePass hr3
  have hr2eq : r2 = stampRootRow (gen + 1) r0 := by
    refine unique_by_rootId mid.2.1 hr2 hkeep ?_
    rw [← hrow2, hr3id, stampRootRow_row_id]
  have hg3 : ¬(r3.row.generation < gen + 1) := by
    have : r3.row.generation = gen + 1 := by
      rw [hrow2, hr2eq]
      rfl
    omega
  rw [query_devices_snd]
  refine ⟨{ r3 with children := r3.children.filter (fun c => !(c.generation < gen + 1)) },
    mem_sweep_of hr3 hg3, hr3id, ?_⟩
  refine List.mem_filter.mpr ⟨hmem, ?_⟩
  simp [stampRow_gen]

theorem recon_canonical {gen : Int} {devs : List XIDeviceInfo} {s : TreeStore}
    (hWF : WFDevs devs) (hInv : InvStore gen s) :
    Canonical (query_devices gen s devs).2 devs := by
  refine ⟨recon_nodup hWF hInv, (recon_inv hWF hInv).2.2, recon_roots hWF hInv, ?_,
    recon_floating hWF hInv, recon_child_src hWF hInv, ?_⟩
  · intro m hm hmu
    obtain ⟨r, hr, hrid⟩ := recon_masters hWF hInv m hm hmu
    exact hrid ▸ mem_rootIds_of_mem hr
  · intro d hd hdm
    obtain ⟨r, hr, h1, h2⟩ := recon_slave_placed hWF hInv d hd hdm
    exact ⟨r, hr, h1, h2⟩

theorem recon_childUnder {gen : Int} {devs : List XIDeviceInfo} {s : TreeStore}
    (hWF : WFDevs devs) (hInv : InvStore gen s) (i t : Int) :
    ChildUnder (query_devices gen s devs).2 i t ↔
      ∃ d ∈ devs, isMasterUse d.use = false ∧ d.deviceid = i ∧ slaveTarget d = t := by
  constructor
  · rintro ⟨r, hr, hrid, hmem⟩
    obtain ⟨c, hcm, hcid⟩ := List.mem_map.mp hmem
    obtain ⟨d, hd, hdm, hdcid, htgt⟩ := recon_child_src hWF hInv r hr c hcm
    exact ⟨d, hd, hdm, by rw [← hdcid, hcid], by rw [htgt, hrid]⟩
  · rintro ⟨d, hd, hdm, hdid, htgt⟩
    obtain ⟨r, hr, h1, h2⟩ := recon_slave_placed hWF hInv d hd hdm
    exact ⟨r, hr, by rw [h1, htgt], hdid ▸ h2⟩

/-! ## Reconciling an already-canonical store: pure re-stamping -/

theorem mem_slaveIds_of {d : XIDeviceInfo} {devs : List XIDeviceInfo}
    (hd : d ∈ devs) (hdm : isMasterUse d.use = false) : d.deviceid ∈ slaveIds devs := by
  simp only [slaveIds, List.mem_map, List.mem_filter]
  exact ⟨d, ⟨hd, by rw [hdm]; rfl⟩, rfl⟩

theorem slaveIds_cons_slave {d : XIDeviceInfo} (rest : List XIDeviceInfo)
    (h : isMasterUse d.use = false) :
    slaveIds (d :: rest) = d.deviceid :: slaveIds rest := by
  simp [slaveIds, List.filter_cons, h]

theorem slaveIds_cons_master {d : XIDeviceInfo} (rest : List XIDeviceInfo)
    (h : isMasterUse d.use = true) :
    slaveIds (d :: rest) = slaveIds rest := by
  simp [slaveIds, List.filter_cons, h]

theorem map_stampRow_not_mem {g i : Int} {cs : List Row} (h : i ∉ cs.map (·.id)) :
    cs.map (fun c => if c.id = i then stampRow g c else c) = cs := by
  induction cs with
  | nil => rfl
  | cons c rest ih =>
    rw [List.map_cons, List.mem_cons] at h
    push_neg at h
    have hne : c.id ≠ i := fun hc => h.1 hc.symm
    rw [List.map_cons, if_neg hne, ih h.2]

theorem map_modifyRoot_not_mem {t : Int} {s : TreeStore} (f : RootRow → RootRow)
    (h : t ∉ rootIds s) :
    s.map (fun r => if r.row.id = t then f r else r) = s := by
  induction s with
  | nil => rfl
  | cons r rs ih =>
    rw [rootIds_cons, List.mem_cons] at h
    push_neg at h
    have hne : r.row.id ≠ t := fun hc => h.1 hc.symm
    rw [List.map_cons, if_neg hne, ih h.2]

theorem stampOrAppend_of_mem {g : Int} {d : XIDeviceInfo} {cs : List Row}
    (hmem : d.deviceid ∈ cs.map (·.id)) (hnd : (cs.map (·.id)).Nodup) :
    stampOrAppendChild g d cs =
      cs.map (fun c => if c.id = d.deviceid then stampRow g c else c) := by
  induction cs with
  | nil => simp at hmem
  | cons c0 rest ih =>
    rw [List.map_cons] at hmem hnd
    rw [List.nodup_cons] at hnd
    by_cases h0 : c0.id = d.deviceid
    · rw [stampOrAppendChild, if_pos h0, List.map_cons, if_pos h0]
      have h1 : d.deviceid ∉ rest.map (·.id) := h0 ▸ hnd.1
      rw [map_stampRow_not_mem h1]
    · rcases List.mem_cons.mp hmem with h | h
      · exact absurd h.symm h0
      · rw [stampOrAppendChild, if_neg h0, List.map_cons, if_neg h0, ih h hnd.2]

theorem rootIds_placeSlave (g : Int) (d : XIDeviceInfo) (s : TreeStore) :
    rootIds (placeSlave g d s) = rootIds s := by
  have h := congrArg (List.map (·.id)) (placeSlave_rootRows g d s)
  rw [List.map_map, List.map_map] at h
  exact h

theorem placeSlave_canonical {g : Int} {d : XIDeviceInfo} {s : TreeStore}
    (hnd : (rootIds s).Nodup)
    (hmatch : ∀ r ∈ s, slaveMatches d r.row.id = true ↔ r.row.id = slaveTarget d) :
    placeSlave g d s = s.map (fun r => if r.row.id = slaveTarget d
      then { r with children := stampOrAppendChild g d r.children } else r) := by
  induction s with
  | nil => rfl
  | cons r0 rs ih =>
    rw [rootIds_cons, List.nodup_cons] at hnd
    by_cases h0 : r0.row.id = slaveTarget d
    · have hm0 : slaveMatches d r0.row.id = true :=
        (hmatch r0 (List.mem_cons_self _ _)).mpr h0
      rw [placeSlave, if_pos hm0, List.map_cons, if_pos h0,
        map_modifyRoot_not_mem _ (h0 ▸ hnd.1)]
    · have hm0 : ¬(slaveMatches d r0.row.id = true) := fun hc =>
        h0 ((hmatch r0 (List.mem_cons_self _ _)).mp hc)
      rw [placeSlave, if_neg hm0, List.map_cons, if_neg h0,
        ih hnd.2 (fun r hr => hmatch r (List.mem_cons_of_mem _ hr))]

theorem floatingPass_canonical {g : Int} {X : TreeStore} {fl : RootRow}
    (hfl : fl.row.id = ID_FLOATING) (hX : ID_FLOATING ∉ rootIds X) :
    floatingPass g (X ++ [fl]) = X ++ [stampRootRow g fl] := by
  have h := @floatingPass_split g X [] fl hfl hX
  rw [List.append_nil] at h
  exact h

theorem slavePass_canonical {g : Int} {devs : List XIDeviceInfo} {s : TreeStore}
    (hnd : (rootIds s).Nodup)
    (hdd : (deviceIds devs).Nodup)
    (hids : ∀ i ∈ rootIds s, i = ID_FLOATING ∨ 2 ≤ i)
    (hfl0 : ∀ d ∈ devs, d.use = XIFloatingSlave → d.attachment = 0)
    (hcnd : ∀ r ∈ s, (childIds r).Nodup)
    (hstray : ∀ r ∈ s, ∀ i ∈ childIds r, ∀ d ∈ devs, isMasterUse d.use = false →
      i = d.deviceid → r.row.id = slaveTarget d)
    (hplaced : ∀ d ∈ devs, isMasterUse d.use = false →
      ∃ r ∈ s, r.row.id = slaveTarget d ∧ d.deviceid ∈ childIds r) :
    slavePass g s devs = s.map (fun r =>
      { r with children := r.children.map (fun c =>
          if c.id ∈ slaveIds devs then stampRow g c else c) }) := by
  induction devs generalizing s with
  | nil =>
    show s = _
    symm
    have hone : ∀ r ∈ s, (fun r => ({ r with children := r.children.map (fun c =>
        if c.id ∈ slaveIds [] then stampRow g c else c) } : RootRow)) r = r := by
      intro r _
      show ({ r with children := r.children.map (fun c =>
        if c.id ∈ slaveIds [] then stampRow g c else c) } : RootRow) = r
      have h2 : r.children.map (fun c =>
          if c.id ∈ slaveIds [] then stampRow g c else c) = r.children := by
        have h3 : ∀ c ∈ r.children, (fun c =>
            if c.id ∈ slaveIds [] then stampRow g c else c) c = (fun c => c) c := by
          intro c _
          show (if c.id ∈ slaveIds [] then stampRow g c else c) = c
          rw [if_neg (by simp [slaveIds])]
        rw [List.map_congr_left h3, List.map_id']
      rw [h2]
    calc s.map _ = s.map (fun r => r) := List.map_congr_left hone
      _ = s := List.map_id' s
  | cons d rest ih =>
    have hddc := hdd
    rw [deviceIds_cons, List.nodup_cons] at hddc
    rw [slavePass_cons]
    by_cases hm : isMasterUse d.use
    · rw [if_pos hm, ih hnd hddc.2 hids (fun d' hd' => hfl0 d' (List.mem_cons_of_mem _ hd'))
        hcnd
        (fun r hr i hi d' hd' => hstray r hr i hi d' (List.mem_cons_of_mem _ hd'))
        (fun d' hd' => hplaced d' (List.mem_cons_of_mem _ hd')),
        slaveIds_cons_master rest hm]
    · rw [if_neg hm]
      have hm' : isMasterUse d.use = false := by simpa using hm
      have hmatch : ∀ r ∈ s, slaveMatches d r.row.id = true ↔ r.row.id = slaveTarget d := by
        intro r hr
        constructor
        · exact fun h => matches_imp_target (hfl0 d (List.mem_cons_self _ _))
            (hids _ (mem_rootIds_of_mem hr)) h
        · intro h
          rw [h]
          exact slaveMatches_target d
      rw [placeSlave_canonical hnd hmatch]
      obtain ⟨rt, hrt, hrtid, hrtmem⟩ := hplaced d (List.mem_cons_self _ _) hm'
      have hrowpres : ∀ r : RootRow, ((if r.row.id = slaveTarget d
          then { r with children := stampOrAppendChild g d r.children } else r) : RootRow).row
            = r.row := by
        intro r
        by_cases hid : r.row.id = slaveTarget d
        · rw [if_pos hid]
        · rw [if_neg hid]
      have hchpres : ∀ r ∈ s, childIds ((if r.row.id = slaveTarget d
          then { r with children := stampOrAppendChild g d r.children } else r) : RootRow)
            = childIds r := by
        intro r hr
        by_cases hid : r.row.id = slaveTarget d
        · rw [if_pos hid]
          have hreq : r = rt := unique_by_rootId hnd hr hrt (by rw [hid, hrtid])
          have hmemid : d.deviceid ∈ r.children.map (·.id) := by
            rw [hreq]
            exact hrtmem
          show (stampOrAppendChild g d r.children).map (·.id) = r.children.map (·.id)
          rw [stampOrAppend_ids, if_pos hmemid]
        · rw [if_neg hid]
      have hmapmem : ∀ r' ∈ s.map (fun r => if r.row.id = slaveTarget d
          then { r with children := stampOrAppendChild g d r.children } else r),
          ∃ r ∈ s, ((if r.row.id = slaveTarget d
            then { r with children := stampOrAppendChild g d r.children } else r) :
              RootRow) = r' := by
        intro r' hr'
        exact List.mem_map.mp hr'
      have hnd' : (rootIds (s.map (fun r => if r.row.id = slaveTarget d
          then { r with children := stampOrAppendChild g d r.children } else r))).Nodup := by
        have he : rootIds (s.map (fun r => if r.row.id = slaveTarget d
            then { r with children := stampOrAppendChild g d r.children } else r))
              = rootIds s := by
          unfold rootIds
          rw [List.map_map]
          refine List.map_congr_left ?_
          intro r _
          show ((if r.row.id = slaveTarget d
            then { r with children := stampOrAppendChild g d r.children } else r) :
              RootRow).row.id = r.row.id
          rw [hrowpres r]
        rw [he]
        exact hnd
      have hids' : ∀ i ∈ rootIds (s.map (fun r => if r.row.id = slaveTarget d
          then { r with children := stampOrAppendChild g d r.children } else r)),
          i = ID_FLOATING ∨ 2 ≤ i := by
        intro i hi
        rw [mem_rootIds] at hi
        obtain ⟨r', hr', hi'⟩ := hi
        obtain ⟨r, hr, heq⟩ := hmapmem r' hr'
        refine hids i ?_
        rw [← hi', ← heq, hrowpres r]
        exact mem_rootIds_of_mem hr
      have hcnd' : ∀ r' ∈ s.map (fun r => if r.row.id = slaveTarget d
          then { r with children := stampOrAppendChild g d r.children } else r),
          (childIds r').Nodup := by
        intro r' hr'
        obtain ⟨r, hr, heq⟩ := hmapmem r' hr'
        rw [← heq, hchpres r hr]
        exact hcnd r hr
      have hstray' : ∀ r' ∈ s.map (fun r => if r.row.id = slaveTarget d
          then { r with children := stampOrAppendChild g d r.children } else r),
          ∀ i ∈ childIds r', ∀ d' ∈ rest, isMasterUse d'.use = false →
            i = d'.deviceid → r'.row.id = slaveTarget d' := by
        intro r' hr' i hi d' hd' hdm' hieq
        obtain ⟨r, hr, heq⟩ := hmapmem r' hr'
        rw [← heq, hchpres r hr] at hi
        rw [← heq, hrowpres r]
        exact hstray r hr i hi d' (List.mem_cons_of_mem _ hd') hdm' hieq
      have hplaced' : ∀ d' ∈ rest, isMasterUse d'.use = false →
          ∃ r' ∈ s.map (fun r => if r.row.id = slaveTarget d
            then { r with children := stampOrAppendChild g d r.children } else r),
            r'.row.id = slaveTarget d' ∧ d'.deviceid ∈ childIds r' := by
        intro d' hd' hdm'
        obtain ⟨r, hr, hrid, hrmem⟩ := hplaced d' (List.mem_cons_of_mem _ hd') hdm'
        refine ⟨(if r.row.id = slaveTarget d
          then { r with children := stampOrAppendChild g d r.children } else r),
          List.mem_map_of_mem _ hr, ?_, ?_⟩
        · rw [hrowpres r]
          exact hrid
        · rw [hchpres r hr]
          exact hrmem
      rw [ih hnd' hddc.2 hids' (fun d' hd' => hfl0 d' (List.mem_cons_of_mem _ hd'))
        hcnd' hstray' hplaced']
      rw [List.map_map]
      apply List.map_congr_left
      intro r hr
      show (fun r2 => ({ r2 with children := r2.children.map (fun c =>
          if c.id ∈ slaveIds rest then stampRow g c else c) } : RootRow))
          (if r.row.id = slaveTarget d
            then ({ r with children := stampOrAppendChild g d r.children } : RootRow)
            else r) =
        ({ r with children := r.children.map (fun c =>
          if c.id ∈ slaveIds (d :: rest) then stampRow g c else c) } : RootRow)
      by_cases hid : r.row.id = slaveTarget d
      · rw [if_pos hid]
        have hreq : r = rt := unique_by_rootId hnd hr hrt (by rw [hid, hrtid])
        have hmemid : d.deviceid ∈ r.children.map (·.id) := by
          rw [hreq]
          exact hrtmem
        show ({ r with children := (stampOrAppendChild g d r.children).map (fun c =>
            if c.id ∈ slaveIds rest then stampRow g c else c) } : RootRow) = _
        rw [stampOrAppend_of_mem hmemid (hcnd r hr), List.map_map]
        congr 1
        apply List.map_congr_left
        intro c hc
        show (fun c2 => if c2.id ∈ slaveIds rest then stampRow g c2 else c2)
            (if c.id = d.deviceid then stampRow g c else c) =
          (if c.id ∈ slaveIds (d :: rest) then stampRow g c else c)
        rw [slaveIds_cons_slave rest hm']
        by_cases hcd : c.id = d.deviceid
        · rw [if_pos hcd]
          show (if (stampRow g c).id ∈ slaveIds rest then stampRow g (stampRow g c)
            else stampRow g c) = _
          have h1 : (stampRow g c).id ∉ slaveIds rest := by
            rw [stampRow_id, hcd]
            exact fun hcm => hddc.1 (slaveIds_subset_deviceIds hcm)
          rw [if_neg h1, if_pos (show c.id ∈ d.deviceid :: slaveIds rest from by
            rw [hcd]
            exact List.mem_cons_self _ _)]
        · rw [if_neg hcd]
          show (if c.id ∈ slaveIds rest then stampRow g c else c) = _
          by_cases hcr : c.id ∈ slaveIds rest
          · rw [if_pos hcr, if_pos (List.mem_cons_of_mem _ hcr)]
          · rw [if_neg hcr, if_neg (by
              rw [List.mem_cons]
              push_neg
              exact ⟨hcd, hcr⟩)]
      · rw [if_neg hid]
        show ({ r with children := r.children.map (fun c =>
            if c.id ∈ slaveIds rest then stampRow g c else c) } : RootRow) = _
        congr 1
        apply List.map_congr_left
        intro c hc
        rw [slaveIds_cons_slave rest hm']
        have hcd : c.id ≠ d.deviceid := by
          intro hc'
          exact hid (hstray r hr c.id (List.mem_map_of_mem (·.id) hc) d
            (List.mem_cons_self _ _) hm' hc')
        by_cases hcr : c.id ∈ slaveIds rest
        · rw [if_pos hcr, if_pos (List.mem_cons_of_mem _ hcr)]
        · rw [if_neg hcr, if_neg (by
            rw [List.mem_cons]
            push_neg
            exact ⟨hcd, hcr⟩)]

theorem masterPass_canonical {g : Int} {devs : List XIDeviceInfo} {s : TreeStore}
    (hnd : (rootIds s).Nodup) (hdd : (deviceIds devs).Nodup)
    (hall : ∀ m ∈ devs, isMasterUse m.use = true → m.deviceid ∈ rootIds s) :
    masterPass g s devs = stampMastersMap g (masterIds devs) s := by
  rw [masterPass_eq g hnd hdd]
  have h : newMasters g (rootIds s) devs = [] := by
    unfold newMasters
    have h2 : devs.filter
        (fun d => isMasterUse d.use && !(decide (d.deviceid ∈ rootIds s))) = [] := by
      refine List.filter_eq_nil_iff.mpr ?_
      intro d hd
      by_cases hm : isMasterUse d.use
      · simp [hm, hall d hd hm]
      · simp [hm]
    rw [h2, List.map_nil]
  rw [h, List.append_nil]

theorem rootIds_map_stamp (g : Int) (X : TreeStore) :
    rootIds (X.map (stampRootRow g)) = rootIds X := by
  unfold rootIds
  rw [List.map_map]
  exact List.map_congr_left (fun r _ => stampRootRow_row_id g r)

theorem map_self_of_eq {α : Type} {l : List α} {f : α → α} (h : ∀ a ∈ l, f a = a) :
    l.map f = l := by
  induction l with
  | nil => rfl
  | cons a rest ih =>
    rw [List.map_cons, h a (List.mem_cons_self _ _),
      ih (fun b hb => h b (List.mem_cons_of_mem _ hb))]

theorem restamp_gens {g : Int} {s : TreeStore} {r : RootRow} (hr : r ∈ restamp g s) :
    (∀ c ∈ r.children, c.generation = g) ∧ r.row.generation = g := by
  unfold restamp at hr
  obtain ⟨r0, -, heq⟩ := List.mem_map.mp hr
  constructor
  · intro c hc
    rw [← heq] at hc
    obtain ⟨c0, -, hc0⟩ := List.mem_map.mp hc
    rw [← hc0]
    rfl
  · rw [← heq]
    rfl

theorem sweep_restamp (g : Int) (s : TreeStore) : sweep g (restamp g s) = restamp g s := by
  unfold sweep
  have h1 : (restamp g s).map (fun r => ({ r with children := r.children.filter (fun c => !(c.generation < g)) } : RootRow)) = restamp g s := by
    apply map_self_of_eq
    intro r hr
    have h2 : r.children.filter (fun c => !(c.generation < g)) = r.children := by
      refine List.filter_eq_self.mpr ?_
      intro c hc
      have h3 := (restamp_gens hr).1 c hc
      simp [h3]
    rw [h2]
  rw [h1]
  refine List.filter_eq_self.mpr ?_
  intro r hr
  have h3 := (restamp_gens hr).2
  simp [h3]

theorem canonical_restamp {gen : Int} {devs : List XIDeviceInfo} {s : TreeStore}
    (hWF : WFDevs devs) (hcan : Canonical s devs) :
    query_devices gen s devs = (gen + 1, restamp (gen + 1) s) := by
  obtain ⟨c1, c2, c3, c4, c5, c6, c7⟩ := hcan
  obtain ⟨hdd, hge2, hfl0, -⟩ := hWF
  obtain ⟨X, fl, hsX, hflid⟩ := c5
  have hndR : (rootIds s).Nodup := rootIds_nodup_of_storeIds c1
  have hmne : ∀ i ∈ masterIds devs, i ≠ ID_FLOATING := by
    intro i hi hc
    have h2 := deviceIds_ge2 hge2 (masterIds_subset_deviceIds hi)
    rw [hc] at h2
    norm_num [ID_FLOATING] at h2
  have h1 : masterPass (gen + 1) s devs =
      stampMastersMap (gen + 1) (masterIds devs) s :=
    masterPass_canonical hndR hdd c4
  have hXne : ID_FLOATING ∉ rootIds X := by
    have hnd2 : (rootIds (X ++ [fl])).Nodup := hsX ▸ hndR
    rw [rootIds_append, List.nodup_append] at hnd2
    intro hc
    refine hnd2.2.2 hc ?_
    rw [rootIds_cons, rootIds_nil, hflid]
    exact List.mem_singleton.mpr rfl
  have hXmaster : ∀ r ∈ X, r.row.id ∈ masterIds devs := by
    intro r hr
    rcases c3 r (by rw [hsX]; exact List.mem_append_left _ hr) with h | h
    · exact absurd (h ▸ mem_rootIds_of_mem hr) hXne
    · exact h
  have h2 : stampMastersMap (gen + 1) (masterIds devs) s =
      X.map (stampRootRow (gen + 1)) ++ [fl] := by
    rw [hsX]
    unfold stampMastersMap
    rw [List.map_append]
    congr 1
    · exact List.map_congr_left (fun r hr => if_pos (hXmaster r hr))
    · rw [List.map_cons, List.map_nil, if_neg (fun hc => hmne _ hc hflid)]
  have h3 : floatingPass (gen + 1) (X.map (stampRootRow (gen + 1)) ++ [fl]) =
      X.map (stampRootRow (gen + 1)) ++ [stampRootRow (gen + 1) fl] := by
    refine floatingPass_canonical hflid ?_
    rw [rootIds_map_stamp]
    exact hXne
  have hs2 : floatingPass (gen + 1) (masterPass (gen + 1) s devs) =
      s.map (stampRootRow (gen + 1)) := by
    rw [h1, h2, h3, hsX, List.map_append, List.map_cons, List.map_nil]
  have hmapmem : ∀ r' ∈ s.map (stampRootRow (gen + 1)),
      ∃ r0 ∈ s, stampRootRow (gen + 1) r0 = r' := fun r' hr' => List.mem_map.mp hr'
  have hnd2 : (rootIds (s.map (stampRootRow (gen + 1)))).Nodup := by
    rw [rootIds_map_stamp]
    exact hndR
  have hids2 : ∀ i ∈ rootIds (s.map (stampRootRow (gen + 1))),
      i = ID_FLOATING ∨ 2 ≤ i := by
    intro i hi
    rw [rootIds_map_stamp] at hi
    exact c2 i ((rootIds_sublist_storeIds s).subset hi)
  have hcnd2 : ∀ r' ∈ s.map (stampRootRow (gen + 1)), (childIds r').Nodup := by
    intro r' hr'
    obtain ⟨r0, hr0, heq⟩ := hmapmem r' hr'
    have hch : childIds r' = childIds r0 := by
      rw [← heq]
      rfl
    rw [hch]
    exact childIds_nodup_of_storeIds c1 r0 hr0
  have hstray2 : ∀ r' ∈ s.map (stampRootRow (gen + 1)), ∀ i ∈ childIds r',
      ∀ d ∈ devs, isMasterUse d.use = false → i = d.deviceid →
        r'.row.id = slaveTarget d := by
    intro r' hr' i hi d hd hdm hieq
    obtain ⟨r0, hr0, heq⟩ := hmapmem r' hr'
    have hch : childIds r' = childIds r0 := by
      rw [← heq]
      rfl
    rw [hch] at hi
    obtain ⟨c, hcm, hcid⟩ := List.mem_map.mp hi
    obtain ⟨d', hd', hdm', hdcid', htgt'⟩ := c6 r0 hr0 c hcm
    have hdd' : d' = d := dev_inj hdd hd' hd (by rw [← hdcid', hcid, hieq])
    rw [← heq, stampRootRow_row_id, ← htgt', hdd']
  have hplaced2 : ∀ d ∈ devs, isMasterUse d.use = false →
      ∃ r' ∈ s.map (stampRootRow (gen + 1)),
        r'.row.id = slaveTarget d ∧ d.deviceid ∈ childIds r' := by
    intro d hd hdm
    obtain ⟨r0, hr0, hrid, hrmem⟩ := c7 d hd hdm
    refine ⟨stampRootRow (gen + 1) r0, List.mem_map_of_mem _ hr0, ?_, ?_⟩
    · rw [stampRootRow_row_id]
      exact hrid
    · show d.deviceid ∈ (stampRootRow (gen + 1) r0).children.map (·.id)
      rw [stampRootRow_children]
      exact hrmem
  have h4 := @slavePass_canonical (gen + 1) devs (s.map (stampRootRow (gen + 1))) hnd2 hdd hids2 hfl0 hcnd2 hstray2 hplaced2
  have h5 : (s.map (stampRootRow (gen + 1))).map (fun r =>
      ({ r with children := r.children.map (fun c => if c.id ∈ slaveIds devs then stampRow (gen + 1) c else c) } : RootRow)) =
      restamp (gen + 1) s := by
    unfold restamp
    rw [List.map_map]
    apply List.map_congr_left
    intro r hr
    show ({ stampRootRow (gen + 1) r with children := (stampRootRow (gen + 1) r).children.map (fun c => if c.id ∈ slaveIds devs then stampRow (gen + 1) c else c) } : RootRow) = _
    have hchmap : (stampRootRow (gen + 1) r).children.map (fun c =>
        if c.id ∈ slaveIds devs then stampRow (gen + 1) c else c) =
        r.children.map (stampRow (gen + 1)) := by
      rw [stampRootRow_children]
      apply List.map_congr_left
      intro c hc
      obtain ⟨d, hd, hdm, hdcid, -⟩ := c6 r hr c hc
      rw [if_pos (by rw [hdcid]; exact mem_slaveIds_of hd hdm)]
    rw [hchmap]
    rfl
  show (gen + 1, sweep (gen + 1) (slavePass (gen + 1)
    (floatingPass (gen + 1) (masterPass (gen + 1) s devs)) devs)) = _
  rw [hs2, h4, h5, sweep_restamp]

/-! ## Claims -/

theorem WFDevs_perm {devs devs' : List XIDeviceInfo} (hp : devs.Perm devs')
    (h : WFDevs devs) : WFDevs devs' := by
  obtain ⟨h1, h2, h3, h4⟩ := h
  have h1' : (devs.map (·.deviceid)).Nodup := h1
  have h1'' : (devs'.map (·.deviceid)).Nodup := ((hp.map (·.deviceid)).nodup_iff).mp h1'
  refine ⟨h1'', ?_, ?_, ?_⟩
  · intro d hd
    exact h2 d (hp.mem_iff.mpr hd)
  · intro d hd
    exact h3 d (hp.mem_iff.mpr hd)
  · intro d hd hdm hdu
    obtain ⟨m, hm, hx⟩ := h4 d (hp.mem_iff.mpr hd) hdm hdu
    exact ⟨m, hp.mem_iff.mp hm, hx⟩

/-- Claim C1: mark-and-sweep correctness of reconciliation.  For every tree
and every well-formed flat device list (distinct device ids at least 2,
attached slaves naming a master present in the list, floating slaves with
a zeroed attachment field), after `query_devices` the set of ids present
in the tree store equals exactly the set of ids of the list, plus the
synthetic Floating bucket id: the sweep removes every row whose
generation stamp is older than the pass generation, children before their
parent, so no extras and no omissions remain. -/
theorem C1_mark_and_sweep (gen : Int) (s : TreeStore) (devs : List XIDeviceInfo)
    (hWF : WFDevs devs) (hInv : InvStore gen s) :
    ∀ i : Int, i ∈ storeIds (query_devices gen s devs).2 ↔
      i ∈ deviceIds devs ∨ i = ID_FLOATING :=
  recon_ids hWF hInv

theorem C1_witness :
    WFDevs [⟨2, "VCP", XIMasterPointer, 3⟩, ⟨3, "VCK", XIMasterKeyboard, 2⟩,
        ⟨9, "mouse", XISlavePointer, 2⟩] ∧
    InvStore 0 [] ∧
    ((9 : Int) ∈ storeIds (query_devices 0 []
        [⟨2, "VCP", XIMasterPointer, 3⟩, ⟨3, "VCK", XIMasterKeyboard, 2⟩,
         ⟨9, "mouse", XISlavePointer, 2⟩]).2 ↔
      (9 : Int) ∈ deviceIds
        [⟨2, "VCP", XIMasterPointer, 3⟩, ⟨3, "VCK", XIMasterKeyboard, 2⟩,
         ⟨9, "mouse", XISlavePointer, 2⟩] ∨ (9 : Int) = ID_FLOATING) :=
  ⟨by decide, by decide,
    C1_mark_and_sweep 0 []
      [⟨2, "VCP", XIMasterPointer, 3⟩, ⟨3, "VCK", XIMasterKeyboard, 2⟩,
       ⟨9, "mouse", XISlavePointer, 2⟩] (by decide) (by decide) 9⟩

/-- Claim C2 counterexample: reconciling twice with the same flat list does
not leave the generation stamps identical — the pass counter is
incremented on every call and every surviving row is re-stamped, so the
second call's stamps are all one higher than the first call's. -/
theorem C2_cex :
    (allRows (query_devices 1 (query_devices 0 [] [⟨2, "ptr", XIMasterPointer, 3⟩]).2
        [⟨2, "ptr", XIMasterPointer, 3⟩]).2).map (·.generation) ≠
      (allRows (query_devices 0 [] [⟨2, "ptr", XIMasterPointer, 3⟩]).2).map
        (·.generation) := by
  decide

/-- Claim C2 (amended): reconciliation is idempotent up to re-stamping.
Calling `query_devices` twice in a row with the same flat device list
leaves the tree of the second call equal to the first call's tree with
every generation stamp advanced by exactly one (`restamp`): the second
call creates no rows, removes no rows and changes no parent/child
relationship or sibling order. -/
theorem C2_idempotent_restamp (gen : Int) (s : TreeStore) (devs : List XIDeviceInfo)
    (hWF : WFDevs devs) (hInv : InvStore gen s) :
    query_devices (query_devices gen s devs).1 (query_devices gen s devs).2 devs =
      ((query_devices gen s devs).1 + 1,
        restamp ((query_devices gen s devs).1 + 1) (query_devices gen s devs).2) :=
  canonical_restamp hWF (recon_canonical hWF hInv)

theorem C2_witness :
    WFDevs [⟨2, "ptr", XIMasterPointer, 3⟩] ∧
    query_devices (query_devices 0 [] [⟨2, "ptr", XIMasterPointer, 3⟩]).1
        (query_devices 0 [] [⟨2, "ptr", XIMasterPointer, 3⟩]).2
        [⟨2, "ptr", XIMasterPointer, 3⟩] =
      ((query_devices 0 [] [⟨2, "ptr", XIMasterPointer, 3⟩]).1 + 1,
        restamp ((query_devices 0 [] [⟨2, "ptr", XIMasterPointer, 3⟩]).1 + 1)
          (query_devices 0 [] [⟨2, "ptr", XIMasterPointer, 3⟩]).2) :=
  ⟨by decide,
    C2_idempotent_restamp 0 [] [⟨2, "ptr", XIMasterPointer, 3⟩] (by decide) (by decide)⟩

/-- Claim C3 counterexample: in the current (immediate-apply) variant, the
drop handler performs no role-compatibility check — dropping the slave
keyboard 5 onto the master pointer 2 issues the attach request to the
display server instead of rejecting it before any call. -/
theorem C3_cex :
    (signal_dnd_recv true 5 XISlaveKeyboard true 2 XIMasterPointer true).calls =
      [[HierarchyChange.attachSlave 5 2]] := by
  decide

/-- Claim C3 (amended): only the staged variant validates role
compatibility.  Its drop handler rejects a reattach before any call to
the display server whenever the drop parent's role class does not match
the dragged slave's role class (slave pointer onto a non-pointer master,
slave keyboard onto a non-keyboard master, the Floating bucket excepted):
nothing is enqueued, no hierarchy call is issued and the tree store is
untouched.  The immediate variant issues the attach call with no check
(see the counterexample). -/
theorem C3_staged_role_check (selId mdId ret selUse mdUse : Int)
    (h : mdUse ≠ XIFloatingSlave ∧
      ((selUse = XISlavePointer ∧ mdUse ≠ XIMasterPointer) ∨
        (selUse = XISlaveKeyboard ∧ mdUse ≠ XIMasterKeyboard))) :
    signal_dnd_recv_staged true selId selUse true mdId mdUse ret = ⟨[], [], false⟩ := by
  obtain ⟨hfl, hcase⟩ := h
  rcases hcase with ⟨h1, h2⟩ | ⟨h1, h2⟩
  · subst h1
    have h2' : mdUse ≠ (1 : Int) := h2
    have hfl' : mdUse ≠ (5 : Int) := hfl
    simp [signal_dnd_recv_staged, XISlavePointer, XIMasterPointer, XIMasterKeyboard,
      XIFloatingSlave, XISlaveKeyboard, h2', hfl']
  · subst h1
    have h2' : mdUse ≠ (2 : Int) := h2
    have hfl' : mdUse ≠ (5 : Int) := hfl
    simp [signal_dnd_recv_staged, XISlavePointer, XIMasterPointer, XIMasterKeyboard,
      XIFloatingSlave, XISlaveKeyboard, h2', hfl']

theorem C3_witness :
    ((XIMasterKeyboard ≠ XIFloatingSlave ∧
      ((XISlavePointer = XISlavePointer ∧ XIMasterKeyboard ≠ XIMasterPointer) ∨
        (XISlavePointer = XISlaveKeyboard ∧ XIMasterKeyboard ≠ XIMasterKeyboard)))) ∧
    signal_dnd_recv_staged true 9 XISlavePointer true 3 XIMasterKeyboard 0 =
      ⟨[], [], false⟩ :=
  ⟨by decide, C3_staged_role_check 9 3 0 XISlavePointer XIMasterKeyboard (by decide)⟩

/-- Claim C4 (code bug): in the staged variant, `change_attachment`'s doc
comment promises to only assemble a change record for the later batch
apply, but the code issues the `XIChangeHierarchy` call immediately and
returns the X `Status` int, which the drop handler appends to the
pending-change list.  Evaluating the failing input: staging
Reattach{9 → 3} by drag-and-drop issues the attach call right away (the
protocol trace is non-empty before any apply or cancel), enqueues the
integer status 0 instead of a change record, and the subsequent cancel
drains the buffer and triggers a refresh — but the server was already
contacted for the staged edit. -/
theorem C4_staged_reattach_contacts_server :
    (signal_dnd_recv_staged true 9 XISlavePointer true 3 XIMasterPointer 0).calls =
      [[HierarchyChange.attachSlave 9 3]] ∧
    (signal_dnd_recv_staged true 9 XISlavePointer true 3 XIMasterPointer 0).enqueued = [0] ∧
    cancel_staged ⟨[HierarchyChange.attachSlave 9 3],
        [[HierarchyChange.attachSlave 9 3]], 0⟩ =
      ⟨[], [[HierarchyChange.attachSlave 9 3]], 1⟩ := by
  decide

/-- Claim C5: reserved master protection.  A remove request on either
reserved id (the server's default pointer and keyboard masters, ids 2 and
3) is rejected client-side — `signal_button_press` creates the Remove
popup item insensitive for those ids, so `signal_popup_activate` (and
with it `remove_master`'s `XIChangeHierarchy` call) can never run: no
protocol call is produced. -/
theorem C5_reserved_master (id use : Int) (h : id = 2 ∨ id = 3) :
    remove_request_calls id use = [] := by
  rcases h with h | h <;> subst h <;>
    simp [remove_request_calls, remove_item_sensitive]

theorem C5_witness :
    ((2 : Int) = 2 ∨ (2 : Int) = 3) ∧ remove_request_calls 2 XIMasterPointer = [] :=
  ⟨Or.inl rfl, C5_reserved_master 2 XIMasterPointer (Or.inl rfl)⟩

/-- Claim C6: floating-bucket singleton and ordering invariant.  After
every reconciliation pass on a well-formed device list, exactly one row
with the Floating id exists in the whole store (its id count is 1), it is
a depth-0 row, and it is the last of the depth-0 rows. -/
theorem C6_floating_singleton (gen : Int) (s : TreeStore) (devs : List XIDeviceInfo)
    (hWF : WFDevs devs) (hInv : InvStore gen s) :
    ∃ X fl, (query_devices gen s devs).2 = X ++ [fl] ∧ fl.row.id = ID_FLOATING ∧
      (storeIds (query_devices gen s devs).2).count ID_FLOATING = 1 := by
  obtain ⟨X, fl, hR, hid⟩ := recon_floating hWF hInv
  refine ⟨X, fl, hR, hid, ?_⟩
  refine List.count_eq_one_of_mem (recon_nodup hWF hInv) ?_
  exact (recon_ids hWF hInv ID_FLOATING).mpr (Or.inr rfl)

theorem C6_witness :
    WFDevs [⟨2, "VCP", XIMasterPointer, 3⟩, ⟨3, "VCK", XIMasterKeyboard, 2⟩,
        ⟨10, "pad", XIFloatingSlave, 0⟩] ∧
    (∃ X fl, (query_devices 0 []
        [⟨2, "VCP", XIMasterPointer, 3⟩, ⟨3, "VCK", XIMasterKeyboard, 2⟩,
         ⟨10, "pad", XIFloatingSlave, 0⟩]).2 = X ++ [fl] ∧
      fl.row.id = ID_FLOATING ∧
      (storeIds (query_devices 0 []
        [⟨2, "VCP", XIMasterPointer, 3⟩, ⟨3, "VCK", XIMasterKeyboard, 2⟩,
         ⟨10, "pad", XIFloatingSlave, 0⟩]).2).count ID_FLOATING = 1) :=
  ⟨by decide,
    C6_floating_singleton 0 []
      [⟨2, "VCP", XIMasterPointer, 3⟩, ⟨3, "VCK", XIMasterKeyboard, 2⟩,
       ⟨10, "pad", XIFloatingSlave, 0⟩] (by decide) (by decide)⟩

/-- Claim C7 counterexample: identity is not stable for a slave whose
attachment changes between two refreshes.  With masters 2/3 and the slave
4 attached to 2, the first pass creates the slave row under master 2 with
birth tag 1; when the next list reports the slave attached to 3, the
slave pass finds no row with id 4 under master 3 and appends a fresh row
(birth tag 2), and the sweep removes the stale original — the device is
present in both lists yet its row after the second reconciliation is a
new allocation, not the old row updated in place. -/
theorem C7_cex :
    ((4, 1) ∈ (allRows (query_devices 0 []
        [⟨2, "VCP", XIMasterPointer, 3⟩, ⟨3, "VCK", XIMasterKeyboard, 2⟩,
         ⟨4, "mouse", XISlavePointer, 2⟩]).2).map (fun rw => (rw.id, rw.birth))) ∧
    ((4, 1) ∉ (allRows (query_devices 1 (query_devices 0 []
        [⟨2, "VCP", XIMasterPointer, 3⟩, ⟨3, "VCK", XIMasterKeyboard, 2⟩,
         ⟨4, "mouse", XISlavePointer, 2⟩]).2
        [⟨2, "VCP", XIMasterPointer, 3⟩, ⟨3, "VCK", XIMasterKeyboard, 2⟩,
         ⟨4, "mouse", XISlavePointer, 3⟩]).2).map (fun rw => (rw.id, rw.birth))) ∧
    ((4, 2) ∈ (allRows (query_devices 1 (query_devices 0 []
        [⟨2, "VCP", XIMasterPointer, 3⟩, ⟨3, "VCK", XIMasterKeyboard, 2⟩,
         ⟨4, "mouse", XISlavePointer, 2⟩]).2
        [⟨2, "VCP", XIMasterPointer, 3⟩, ⟨3, "VCK", XIMasterKeyboard, 2⟩,
         ⟨4, "mouse", XISlavePointer, 3⟩]).2).map (fun rw => (rw.id, rw.birth))) := by
  decide

/-- Claim C7 (amended): identity stability across refreshes holds for a
device present in two consecutive well-formed flat lists provided its
placement is unchanged — it stays a master, or it stays a slave with the
same target root (same attachment, or floating both times).  Then the row
shown for it after the first reconciliation survives the second one as
the very same row instance (same `birth` tag, only the generation column
re-stamped in place).  A slave whose attachment changed gets a freshly
allocated row instead (see the counterexample). -/
theorem C7_identity_stable (gen : Int) (s : TreeStore) (devs1 devs2 : List XIDeviceInfo)
    (d1 d2 : XIDeviceInfo)
    (hWF1 : WFDevs devs1) (hWF2 : WFDevs devs2) (hInv : InvStore gen s)
    (hd1 : d1 ∈ devs1) (hd2 : d2 ∈ devs2) (hid : d1.deviceid = d2.deviceid)
    (hsame : (isMasterUse d1.use = true ∧ isMasterUse d2.use = true) ∨
      (isMasterUse d1.use = false ∧ isMasterUse d2.use = false ∧
        slaveTarget d1 = slaveTarget d2)) :
    ∃ rw ∈ allRows (query_devices gen s devs1).2, rw.id = d1.deviceid ∧
      stampRow (gen + 1 + 1) rw ∈
        allRows (query_devices (gen + 1) (query_devices gen s devs1).2 devs2).2 := by
  have hInv1 : InvStore (gen + 1) (query_devices gen s devs1).2 := recon_inv hWF1 hInv
  rcases hsame with ⟨hm1, hm2⟩ | ⟨hm1, hm2, htgt⟩
  · obtain ⟨r, hr, hrid⟩ := recon_masters hWF1 hInv d1 hd1 hm1
    refine ⟨r.row, mem_allRows.mpr ⟨r, hr, Or.inl rfl⟩, hrid, ?_⟩
    have hmem : r.row.id ∈ masterIds devs2 ∨ r.row.id = ID_FLOATING := by
      left
      rw [hrid, hid]
      exact mem_masterIds_of hd2 hm2
    obtain ⟨r', hr', hrow'⟩ := recon_keep_root hWF2 hInv1 r hr hmem
    exact mem_allRows.mpr ⟨r', hr', Or.inl hrow'.symm⟩
  · obtain ⟨r, hr, hrid, hcid⟩ := recon_slave_placed hWF1 hInv d1 hd1 hm1
    obtain ⟨c, hc, hcids⟩ := List.mem_map.mp hcid
    refine ⟨c, mem_allRows.mpr ⟨r, hr, Or.inr hc⟩, hcids, ?_⟩
    obtain ⟨r', hr', hrid', hmem'⟩ := recon_keep_child hWF2 hInv1 r hr c hc d2 hd2 hm2
      (by rw [hcids]; exact hid) (by rw [← htgt, hrid])
    exact mem_allRows.mpr ⟨r', hr', Or.inr hmem'⟩

theorem C7_witness :
    WFDevs [⟨2, "VCP", XIMasterPointer, 3⟩, ⟨3, "VCK", XIMasterKeyboard, 2⟩,
        ⟨4, "mouse", XISlavePointer, 2⟩] ∧
    InvStore 0 [] ∧
    (∃ rw ∈ allRows (query_devices 0 []
        [⟨2, "VCP", XIMasterPointer, 3⟩, ⟨3, "VCK", XIMasterKeyboard, 2⟩,
         ⟨4, "mouse", XISlavePointer, 2⟩]).2, rw.id = (4 : Int) ∧
      stampRow (0 + 1 + 1) rw ∈
        allRows (query_devices (0 + 1) (query_devices 0 []
          [⟨2, "VCP", XIMasterPointer, 3⟩, ⟨3, "VCK", XIMasterKeyboard, 2⟩,
           ⟨4, "mouse", XISlavePointer, 2⟩]).2
          [⟨2, "VCP", XIMasterPointer, 3⟩, ⟨3, "VCK", XIMasterKeyboard, 2⟩,
           ⟨4, "mouse", XISlavePointer, 2⟩]).2) :=
  ⟨by decide, by decide,
    C7_identity_stable 0 []
      [⟨2, "VCP", XIMasterPointer, 3⟩, ⟨3, "VCK", XIMasterKeyboard, 2⟩,
       ⟨4, "mouse", XISlavePointer, 2⟩]
      [⟨2, "VCP", XIMasterPointer, 3⟩, ⟨3, "VCK", XIMasterKeyboard, 2⟩,
       ⟨4, "mouse", XISlavePointer, 2⟩]
      ⟨4, "mouse", XISlavePointer, 2⟩ ⟨4, "mouse", XISlavePointer, 2⟩
      (by decide) (by decide) (by decide) (by decide) (by decide) rfl
      (Or.inr ⟨by decide, by decide, rfl⟩)⟩

/-- Claim C8 counterexample: when `malloc` fails, `apply` logs and returns
early — the pending-change buffer is left non-empty and no `query_devices`
refresh is triggered, contradicting the claimed postcondition for the
allocation-failure case. -/
theorem C8_cex :
    (apply false ⟨[HierarchyChange.attachSlave 9 3], [], 0⟩).changes ≠ [] ∧
    (apply false ⟨[HierarchyChange.attachSlave 9 3], [], 0⟩).refreshes = 0 := by
  decide

/-- Claim C8 (amended): the apply postcondition — empty buffer, one
`XIChangeHierarchy` call carrying the whole batch, and a `query_devices`
refresh — holds exactly when the allocation of the change array succeeds
(the server-side outcome of the batch is irrelevant, since the code
ignores the `XIChangeHierarchy` return status).  On allocation failure
`apply` returns with the state untouched: the buffer keeps its contents
and no refresh happens (see the counterexample). -/
theorem C8_apply_postcondition (st : ApplyState) (h : st.changes ≠ []) :
    apply true st = ⟨[], st.trace ++ [st.changes], st.refreshes + 1⟩ ∧
    apply false st = st := by
  constructor
  · simp [apply, List.length_eq_zero, h]
  · simp [apply]

theorem C8_witness :
    ([HierarchyChange.attachSlave 9 3] ≠ ([] : List HierarchyChange)) ∧
    (apply true ⟨[HierarchyChange.attachSlave 9 3], [], 0⟩ =
        ⟨[], [] ++ [[HierarchyChange.attachSlave 9 3]], 0 + 1⟩ ∧
      apply false ⟨[HierarchyChange.attachSlave 9 3], [], 0⟩ =
        ⟨[HierarchyChange.attachSlave 9 3], [], 0⟩) :=
  ⟨by decide,
    C8_apply_postcondition ⟨[HierarchyChange.attachSlave 9 3], [], 0⟩ (by decide)⟩

/-- Claim C9 counterexample: the resulting tree is not literally invariant
under permutation of the flat device list — the master pass appends new
depth-0 rows in list order, so swapping the two masters swaps the sibling
order of their rows. -/
theorem C9_cex :
    query_devices 0 []
        [⟨2, "VCP", XIMasterPointer, 3⟩, ⟨3, "VCK", XIMasterKeyboard, 2⟩] ≠
      query_devices 0 []
        [⟨3, "VCK", XIMasterKeyboard, 2⟩, ⟨2, "VCP", XIMasterPointer, 3⟩] := by
  decide

/-- Claim C9 (amended): reconciliation is order-independent with respect to
the flat device list only up to depth-0 sibling order.  For a permutation
of a well-formed list, the two results show the same id set and the same
parent/child relation, and the Floating bucket is last in both; the
depth-0 ordering of the masters, however, follows list order for newly
appended rows, so permuted inputs can produce differently ordered
siblings (see the counterexample). -/
theorem C9_order_independent_upto (gen : Int) (s : TreeStore)
    (devs devs' : List XIDeviceInfo) (hperm : List.Perm devs devs')
    (hWF : WFDevs devs) (hInv : InvStore gen s) :
    (∀ i : Int, i ∈ storeIds (query_devices gen s devs).2 ↔
        i ∈ storeIds (query_devices gen s devs').2) ∧
    (∀ i t : Int, ChildUnder (query_devices gen s devs).2 i t ↔
        ChildUnder (query_devices gen s devs').2 i t) ∧
    (∃ X fl, (query_devices gen s devs').2 = X ++ [fl] ∧ fl.row.id = ID_FLOATING) := by
  have hWF' : WFDevs devs' := WFDevs_perm hperm hWF
  refine ⟨?_, ?_, recon_floating hWF' hInv⟩
  · intro i
    rw [recon_ids hWF hInv i, recon_ids hWF' hInv i]
    have hm : i ∈ deviceIds devs ↔ i ∈ deviceIds devs' := (hperm.map (·.deviceid)).mem_iff
    rw [hm]
  · intro i t
    rw [recon_childUnder hWF hInv i t, recon_childUnder hWF' hInv i t]
    constructor
    · rintro ⟨d, hd, h⟩
      exact ⟨d, hperm.mem_iff.mp hd, h⟩
    · rintro ⟨d, hd, h⟩
      exact ⟨d, hperm.mem_iff.mpr hd, h⟩

theorem C9_witness :
    List.Perm [⟨2, "VCP", XIMasterPointer, 3⟩, ⟨3, "VCK", XIMasterKeyboard, 2⟩]
        [(⟨3, "VCK", XIMasterKeyboard, 2⟩ : XIDeviceInfo), ⟨2, "VCP", XIMasterPointer, 3⟩] ∧
    WFDevs [⟨2, "VCP", XIMasterPointer, 3⟩, ⟨3, "VCK", XIMasterKeyboard, 2⟩] ∧
    InvStore 0 [] ∧
    ((2 : Int) ∈ storeIds (query_devices 0 []
        [⟨2, "VCP", XIMasterPointer, 3⟩, ⟨3, "VCK", XIMasterKeyboard, 2⟩]).2 ↔
      (2 : Int) ∈ storeIds (query_devices 0 []
        [⟨3, "VCK", XIMasterKeyboard, 2⟩, ⟨2, "VCP", XIMasterPointer, 3⟩]).2) :=
  ⟨List.Perm.swap _ _ _, by decide, by decide,
    (C9_order_independent_upto 0 []
      [⟨2, "VCP", XIMasterPointer, 3⟩, ⟨3, "VCK", XIMasterKeyboard, 2⟩]
      [⟨3, "VCK", XIMasterKeyboard, 2⟩, ⟨2, "VCP", XIMasterPointer, 3⟩]
      (List.Perm.swap _ _ _) (by decide) (by decide)).1 2⟩

/-- Claim C10: dropping a master is a no-op in both variants.  When the
selected row's `COL_USE` is `XIMasterPointer` or `XIMasterKeyboard`, both
drop handlers return right after reading the selection: no hierarchy call
is issued, nothing is enqueued, no refresh happens, the undo button stays
untouched and the tree store is not edited. -/
theorem C10_master_drop_noop (selId selUse mdId mdUse ret : Int) (opOk : Bool)
    (h : selUse = XIMasterPointer ∨ selUse = XIMasterKeyboard) :
    signal_dnd_recv true selId selUse true mdId mdUse opOk = ⟨[], false, false⟩ ∧
    signal_dnd_recv_staged true selId selUse true mdId mdUse ret = ⟨[], [], false⟩ := by
  rcases h with h | h <;> subst h <;>
    exact ⟨by simp [signal_dnd_recv, XIMasterPointer, XIMasterKeyboard],
      by simp [signal_dnd_recv_staged, XIMasterPointer, XIMasterKeyboard]⟩

theorem C10_witness :
    (XIMasterPointer = XIMasterPointer ∨ XIMasterPointer = XIMasterKeyboard) ∧
    (signal_dnd_recv true 4 XIMasterPointer true 3 XIMasterKeyboard true =
        ⟨[], false, false⟩ ∧
      signal_dnd_recv_staged true 4 XIMasterPointer true 3 XIMasterKeyboard 0 =
        ⟨[], [], false⟩) :=
  ⟨Or.inl rfl, C10_master_drop_noop 4 XIMasterPointer 3 XIMasterKeyboard 0 true (Or.inl rfl)⟩
